import Mathlib

/-!
Shallow embedding of the rANS Nx16 decoder of `noodles-cram`
(`src/noodles-cram/src/codecs/rans_nx16/decode.rs`).

The byte stream is a `List Nat` of bytes; a reader is a state-passing
function consuming a prefix of the stream.  Fallible operations return
`Except Err`.  `Err.eof` models `io::ErrorKind::UnexpectedEof`,
`Err.invalidData` models `io::ErrorKind::InvalidData`, `Err.panic` models a
Rust panic (out-of-bounds slice index or `Option::unwrap` on `None`), and
`Err.outOfFuel` is an artifact of the embedding of the recursive stripe
decoder (shown unreachable for sufficient fuel).

The submodules `order_0.rs`, `order_1.rs`, `pack.rs`, `rle.rs`, the `Flags`
bitset and the `read_uint7` helper are not part of the sources; they are
modelled from the specification and marked `Modelled from the spec:` in
their doc comments.  Everything else is translated from `decode.rs`.
-/

namespace RansNx16

inductive Err : Type where
  | eof : Err
  | invalidData : Err
  | panic : Err
  | outOfFuel : Err
deriving DecidableEq, Repr

instance decEqExcept {α : Type} [DecidableEq α] : DecidableEq (Except Err α)
  | .ok a, .ok b =>
      if h : a = b then .isTrue (by rw [h]) else .isFalse (by simp [h])
  | .ok _, .error _ => .isFalse (by simp)
  | .error _, .ok _ => .isFalse (by simp)
  | .error e, .error f =>
      if h : e = f then .isTrue (by rw [h]) else .isFalse (by simp [h])

/-- A byte-stream reader: consumes a prefix of the input list, returning a
value and the remaining stream, or an error. -/
def Parser (α : Type) : Type := List Nat → Except Err (α × List Nat)

instance : Monad Parser where
  pure a := fun bs => .ok (a, bs)
  bind p f := fun bs =>
    match p bs with
    | .ok (a, bs') => f a bs'
    | .error e => .error e

/-- Failure, as a reader. -/
def pfail {α : Type} (e : Err) : Parser α := fun _ => .error e

/-- Lift a pure fallible computation into a reader (consumes nothing). -/
def liftE {α : Type} : Except Err α → Parser α
  | .ok a => pure a
  | .error e => pfail e

/-- `reader.read_u8()`: one byte. -/
def read_u8 : Parser Nat
  | [] => .error .eof
  | b :: rest => .ok (b % 256, rest)

/-- `reader.read_u16::<LittleEndian>()`: one little-endian 16-bit word. -/
def read_u16_le : Parser Nat
  | b0 :: b1 :: rest => .ok (b0 % 256 + 256 * (b1 % 256), rest)
  | _ => .error .eof

/-- `reader.read_u32::<LittleEndian>()`: one little-endian 32-bit word. -/
def read_u32_le : Parser Nat
  | b0 :: b1 :: b2 :: b3 :: rest =>
      .ok (b0 % 256 + 256 * (b1 % 256) + 65536 * (b2 % 256) + 16777216 * (b3 % 256), rest)
  | _ => .error .eof

/-- `reader.read_exact(&mut buf)` for a buffer of length `k`. -/
def read_exact (k : Nat) : Parser (List Nat) := fun bs =>
  if k ≤ bs.length then .ok ((bs.take k).map (· % 256), bs.drop k) else .error .eof

/-- Modelled from the spec: `read_uint7` (`crate::reader::num`, not in the
sources).  "Variable-length integer: base-128, low 7 bits per byte, high
bit = continuation"; accumulator loop, most-significant group first.  The
value is returned as an unbounded natural; the callers in `decode.rs`
convert it to the platform size type and fail with `InvalidData` when it
does not fit. -/
def read_uint7Go : List Nat → Nat → Except Err (Nat × List Nat)
  | [], _ => .error .eof
  | b :: rest, acc =>
      if b % 256 < 128 then .ok (acc * 128 + b % 256, rest)
      else read_uint7Go rest (acc * 128 + b % 128)

def read_uint7 : Parser Nat := fun bs => read_uint7Go bs 0

/-- The platform size type is modelled as 64-bit (`usize` on a 64-bit
target): `usize::try_from` fails for values `≥ 2^64`. -/
def USIZE_LIMIT : Nat := 2 ^ 64

/-- `read_uint7(reader).and_then(|n| usize::try_from(n).map_err(InvalidData))`,
the combination used throughout `decode.rs`. -/
def read_uint7_usize : Parser Nat := do
  let v ← read_uint7
  if v < USIZE_LIMIT then pure v else pfail .invalidData

/-- Modelled from the spec: the `Flags` bitset (`flags.rs` is not in the
sources).  Bit values of `ORDER`, `STRIPE`, `CAT`, `RLE`, `PACK` are pinned
by the spec's golden-vector flag bytes (0x01, 0x08, 0x20, 0x40, 0x80); the
remaining two capabilities `N32` and `NO_SIZE` take the remaining bits of
the reference CRAM format (0x04, 0x10). -/
def FLAG_ORDER : Nat := 0x01
def FLAG_N32 : Nat := 0x04
def FLAG_STRIPE : Nat := 0x08
def FLAG_NO_SIZE : Nat := 0x10
def FLAG_CAT : Nat := 0x20
def FLAG_RLE : Nat := 0x40
def FLAG_PACK : Nat := 0x80

/-- `flags.contains(bit)` for a one-bit mask `bit`. -/
def hasFlag (flags bit : Nat) : Bool := flags / bit % 2 = 1

/-!
`read_alphabet` (decode.rs lines 81–113).  The source loop is split at the
points where it touches the reader: `alphaRun` performs the iterations of
the loop whose branch is `rle > 0` (they consume no input; `u8` increment
wraps, as Rust release arithmetic does), and `alphaRead` performs the
iterations that read a symbol byte.  At the top of every iteration the
current symbol equals `last_sym` (the source assigns `last_sym = sym` at
the end of each iteration), which is why `alphaRead` carries only
`last_sym`.  Besides the `alphabet` array the embedding returns the final
value of `rle` and whether the terminating symbol `0` was freshly read
from the stream (`true`) or produced by the in-run increment (`false`);
`read_alphabet` discards this extra information, matching the source
signature.
-/

/-- Iterations of the `read_alphabet` loop taken with `rle > 0`: mark
`sym`, decrement `rle`, increment `sym` (wrapping `u8`), stop at `sym = 0`.
`.inl (a, rleLeft)` = the loop broke with `rle = rleLeft` still pending;
`.inr (a, sym)` = the run is exhausted and the next iteration reads. -/
def alphaRun : Nat → List Bool → Nat → ((List Bool × Nat) ⊕ (List Bool × Nat))
  | 0, a, sym => .inr (a.set sym true, sym)
  | rle + 1, a, sym =>
      let a' := a.set sym true
      let sym' := (sym + 1) % 256
      if sym' = 0 then .inl (a', rle) else alphaRun rle a' sym'

/-- Iterations of the `read_alphabet` loop taken with `rle = 0`: mark
`last_sym`, read a fresh `sym`, read a run byte when `sym` continues
`last_sym` by exactly one (and `last_sym < 255`), stop at a freshly read
`sym = 0`.  Returns `(alphabet, final rle, terminator freshly read)`. -/
def alphaRead : List Nat → List Bool → Nat → Except Err ((List Bool × Nat × Bool) × List Nat)
  | [], _, _ => .error .eof
  | b :: rest, a, last_sym =>
      let a' := a.set last_sym true
      let sym := b % 256
      if last_sym < 255 ∧ sym = last_sym + 1 then
        match rest with
        | [] => .error .eof
        | rb :: rest' =>
            match alphaRun (rb % 256) a' sym with
            | .inl (a'', rleLeft) => .ok ((a'', rleLeft, false), rest')
            | .inr (a'', sym') => alphaRead rest' a'' sym'
      else
        if sym = 0 then .ok ((a', 0, true), rest)
        else alphaRead rest a' sym

/-- `read_alphabet` with the final `rle` and the freshly-read flag exposed. -/
def read_alphabetFull : Parser (List Bool × Nat × Bool) := fun bs =>
  match bs with
  | [] => .error .eof
  | b :: rest => alphaRead rest (List.replicate 256 false) (b % 256)

/-- `read_alphabet` (decode.rs lines 81–113). -/
def read_alphabet : Parser (List Bool) := fun bs =>
  match read_alphabetFull bs with
  | .ok ((a, _, _), rest) => .ok (a, rest)
  | .error e => .error e

/-- `rans_get_cumulative_freq_nx16` (decode.rs line 115): `r & ((1 << bits) - 1)`. -/
def rans_get_cumulative_freq_nx16 (r bits : Nat) : Nat := r % 2 ^ bits

/-- The `while sym < 255 && freq >= cumulative_freqs[sym + 1]` loop of
`rans_get_symbol_from_freq`, countdown form: `k = 255 - sym`, so `sym < 255`
iff `k > 0`. -/
def symFromFreqGo (cfreqs : List Nat) (freq : Nat) : Nat → Nat → Nat
  | 0, sym => sym
  | k + 1, sym =>
      if cfreqs.getD (sym + 1) 0 ≤ freq then symFromFreqGo cfreqs freq k (sym + 1) else sym

/-- `rans_get_symbol_from_freq` (decode.rs lines 119–127). -/
def rans_get_symbol_from_freq (cfreqs : List Nat) (freq : Nat) : Nat :=
  symFromFreqGo cfreqs freq 255 0

/-- `rans_advance_step_nx16` (decode.rs lines 129–131):
`f * (r >> bits) + (r & mask) - c` in wrapping `u32` arithmetic. -/
def rans_advance_step_nx16 (r c f bits : Nat) : Nat :=
  ((f * (r / 2 ^ bits)) % 2 ^ 32 + r % 2 ^ bits + (2 ^ 32 - c % 2 ^ 32)) % 2 ^ 32

/-- `rans_renorm_nx16` (decode.rs lines 133–142): top up the `u32` state by
one little-endian 16-bit word whenever it is below `2^15`. -/
def rans_renorm_nx16 (r : Nat) : Parser Nat :=
  if r < 2 ^ 15 then do
    let w ← read_u16_le
    pure ((r * 2 ^ 16) % 2 ^ 32 + w)
  else pure r

/-- The symbols marked present in an alphabet bitmap, in increasing order. -/
def presentSymbols (a : List Bool) : List Nat :=
  (List.range 256).filter (fun i => a.getD i false)

/-- Modelled from the spec: read one frequency value per present symbol
("read per-present-symbol frequency values (typically stored as compact
variable-width integers)"). -/
def readFreqs : List Nat → Parser (List (Nat × Nat))
  | [] => pure []
  | s :: ss => do
      let f ← read_uint7
      let rest ← readFreqs ss
      pure ((s, f) :: rest)

/-- Spread an association list of (symbol, frequency) pairs into the
256-entry frequency table. -/
def freqTable (fs : List (Nat × Nat)) : List Nat :=
  (List.range 256).map (fun s => ((fs.find? (fun q => q.1 == s)).map Prod.snd).getD 0)

/-- The derived cumulative-frequency table: 257 entries,
`cum[0] = 0`, `cum[256] = total`. -/
def cumTable (freqs : List Nat) : List Nat :=
  (List.range 257).map (fun i => (freqs.take i).foldl (· + ·) 0)

/-- Modelled from the spec: read the `n` initial 32-bit little-endian rANS
lane states. -/
def readStates : Nat → Parser (List Nat)
  | 0 => pure []
  | k + 1 => do
      let s ← read_u32_le
      let rest ← readStates k
      pure (s :: rest)

/-- Modelled from the spec: the per-symbol loop of the order-0 decoder
(round-robin across the `n` lanes; slot extraction, cumulative-table
lookup, canonical rANS inverse step, renormalization).  `k` symbols remain,
`i` is the absolute output position. -/
def order0Go (cum freqs : List Nat) (bits n : Nat) :
    Nat → Nat → List Nat → Parser (List Nat)
  | 0, _, _ => pure []
  | k + 1, i, states => do
      let r := states.getD (i % n) 0
      let slot := rans_get_cumulative_freq_nx16 r bits
      let sym := rans_get_symbol_from_freq cum slot
      let r1 := rans_advance_step_nx16 r (cum.getD sym 0) (freqs.getD sym 0) bits
      let r2 ← rans_renorm_nx16 r1
      let rest ← order0Go cum freqs bits n k (i + 1) (states.set (i % n) r2)
      pure (sym :: rest)

/-- Modelled from the spec: the shift width of the rANS model —
`bits` such that `1 << bits == total`; `none` when the normalization total
is not a power of two (a data error). -/
def ransBits (total : Nat) : Option Nat :=
  if 2 ^ Nat.log2 total = total then some (Nat.log2 total) else none

/-- The tail of the order-0 decoder once the frequency table is built:
check the normalization total, read the `n` lane states, emit `len`
symbols. -/
def order0Body (freqs : List Nat) (len n : Nat) : Parser (List Nat) :=
  match ransBits ((cumTable freqs).getD 256 0) with
  | some bits => do
      let states ← readStates n
      order0Go (cumTable freqs) freqs bits n len 0 states
  | none => pfail .invalidData

/-- Modelled from the spec: `order_0::decode` (`order_0.rs` is not in the
sources).  Reads the alphabet bitmap, per-present-symbol frequencies, forms
the 257-entry cumulative table, requires the total to be a power of two
(`bits` chosen so `1 << bits == total`), reads the `n` lane states, then
emits `len` symbols. -/
def order0Decode (len n : Nat) : Parser (List Nat) := do
  let alphabet ← read_alphabet
  let fs ← readFreqs (presentSymbols alphabet)
  order0Body (freqTable fs) len n

/-- `order_0::decode` run over an in-memory buffer (as `decode_rle_meta`
does with its compressed meta block); the buffer's leftover is dropped. -/
def order0Run (len n : Nat) (buf : List Nat) : Except Err (List Nat) :=
  match order0Decode len n buf with
  | .ok (dst, _) => .ok dst
  | .error e => .error e

/-- Modelled from the spec: read one per-context alphabet+frequency block
for every context symbol in `cs` (order-1 header). -/
def readCtxTables : List Nat → Parser (List (Nat × (List Nat × List Nat × Nat)))
  | [] => pure []
  | c :: cs => do
      let alphabet ← read_alphabet
      let fs ← readFreqs (presentSymbols alphabet)
      match ransBits ((cumTable (freqTable fs)).getD 256 0) with
      | some bits => do
          let rest ← readCtxTables cs
          pure ((c, (cumTable (freqTable fs), freqTable fs, bits)) :: rest)
      | none => pfail .invalidData

/-- Modelled from the spec: the per-symbol loop of the order-1 decoder;
the context of each lane is the symbol previously decoded on that lane
(initially 0). -/
def order1Go (tables : List (Nat × (List Nat × List Nat × Nat))) (n : Nat) :
    Nat → Nat → List Nat → List Nat → Parser (List Nat)
  | 0, _, _, _ => pure []
  | k + 1, i, states, ctxs => do
      match tables.find? (fun q => q.1 == ctxs.getD (i % n) 0) with
      | none => pfail .invalidData
      | some (_, (cum, freqs, bits)) => do
          let r := states.getD (i % n) 0
          let slot := rans_get_cumulative_freq_nx16 r bits
          let sym := rans_get_symbol_from_freq cum slot
          let r1 := rans_advance_step_nx16 r (cum.getD sym 0) (freqs.getD sym 0) bits
          let r2 ← rans_renorm_nx16 r1
          let rest ← order1Go tables n k (i + 1) (states.set (i % n) r2) (ctxs.set (i % n) sym)
          pure (sym :: rest)

/-- Modelled from the spec: `order_1::decode` (`order_1.rs` is not in the
sources).  "As §4.2 but with 256 independent frequency/cumulative tables,
one per possible previous-symbol context (each read from the stream as its
own alphabet+frequency block, keyed by the outer context byte which is
itself read from a context-alphabet)"; initial context 0. -/
def order1Decode (len n : Nat) : Parser (List Nat) := do
  let ctxAlphabet ← read_alphabet
  let tables ← readCtxTables (presentSymbols ctxAlphabet)
  let states ← readStates n
  order1Go tables n len 0 states (List.replicate n 0)

/-- Modelled from the spec: bit width of a packed code,
`ceil(log2(n_sym))` for `n_sym ≤ 16`, undefined beyond 16. -/
def packWidth (n_sym : Nat) : Option Nat :=
  if n_sym ≤ 1 then some 0
  else if n_sym ≤ 2 then some 1
  else if n_sym ≤ 4 then some 2
  else if n_sym ≤ 8 then some 3
  else if n_sym ≤ 16 then some 4
  else none

/-- Modelled from the spec: `pack::decode` (`pack.rs` is not in the
sources).  Unpack the entropy-decoded buffer back into one byte per
original symbol by extracting fixed-width little-endian bit fields and
mapping through the symbol table; must exactly reach the declared pre-pack
length. -/
def packDecode (data p : List Nat) (n_sym len : Nat) : Except Err (List Nat) :=
  match packWidth n_sym with
  | none => .error .invalidData
  | some w =>
      if w = 0 then .ok (List.replicate len (p.getD 0 0))
      else if len ≤ data.length * (8 / w) then
        .ok ((List.range len).map
          (fun i => p.getD (data.getD (i / (8 / w)) 0 / 2 ^ (w * (i % (8 / w))) % 2 ^ w) 0))
      else .error .invalidData

/-- Modelled from the spec: the expansion walk of `rle::decode` — for each
core-decoded symbol flagged in `l`, read a run count from the meta cursor
and repeat the symbol `count + 1` times; unflagged symbols pass through. -/
def rleGo (l : List Bool) : List Nat → List Nat → Except Err (List Nat)
  | [], _ => .ok []
  | d :: ds, meta =>
      if l.getD d false then
        match read_uint7 meta with
        | .ok (count, meta') => (rleGo l ds meta').map (fun rest => List.replicate (count + 1) d ++ rest)
        | .error e => .error e
      else (rleGo l ds meta).map (fun rest => d :: rest)

/-- Modelled from the spec: `rle::decode` (`rle.rs` is not in the sources).
"Output length must equal the declared pre-RLE length exactly; excess or
shortfall is a decode error." -/
def rleDecode (data : List Nat) (l : List Bool) (meta : List Nat) (rle_len : Nat) :
    Except Err (List Nat) :=
  match rleGo l data meta with
  | .ok out => if out.length = rle_len then .ok out else .error .invalidData
  | .error e => .error e

/-- `decode_pack_meta` (decode.rs lines 235–253): a 1-byte symbol count
(`NonZeroUsize::try_from` turns 0 into `InvalidData`), the raw symbol
table of that length, and the pre-pack length as a variable-length
integer. -/
def decode_pack_meta : Parser (List Nat × Nat × Nat) := do
  let n ← read_u8
  if n = 0 then pfail .invalidData
  else do
    let p ← read_exact n
    let len ← read_uint7_usize
    pure (p, n, len)

/-- The `for _ in 0..m { let s = rle_meta_reader.read_u8()?; l[s] = true }`
loop of `decode_rle_meta`, over the in-memory meta cursor. -/
def readRleSymsGo : Nat → List Bool → Parser (List Bool)
  | 0, l => pure l
  | m + 1, l => do
      let s ← read_u8
      readRleSymsGo m (l.set s true)

/-- The parse of the flagged-symbol set from the meta cursor: a count byte
`m` (0 means 256) followed by `m` symbol bytes. -/
def parseRleFlags : Parser (List Bool) := do
  let m0 ← read_u8
  readRleSymsGo (if m0 = 0 then 256 else m0) (List.replicate 256 false)

/-- The acquisition of the raw meta bytes in `decode_rle_meta`: an odd
declared meta length means the `rle_meta_len / 2` meta bytes are stored
raw, an even one means they are themselves order-0 compressed into a
length-prefixed block. -/
def rleMetaBytes (rle_meta_len n : Nat) : Parser (List Nat) :=
  if rle_meta_len % 2 = 1 then read_exact (rle_meta_len / 2)
  else do
    let comp_meta_len ← read_uint7_usize
    let buf ← read_exact comp_meta_len
    liftE (order0Run (rle_meta_len / 2) n buf)

/-- `decode_rle_meta` (decode.rs lines 186–233): meta length and pre-RLE
length as variable-length integers, the meta bytes (raw or order-0
compressed), then the flagged-symbol set parsed from the meta cursor,
whose remainder (holding the run counts) is returned along with the
pre-RLE length. -/
def decode_rle_meta (n : Nat) : Parser (List Bool × List Nat × Nat) := do
  let rle_meta_len ← read_uint7_usize
  let len ← read_uint7_usize
  let rle_meta ← rleMetaBytes rle_meta_len n
  let lc ← liftE (parseRleFlags rle_meta)
  pure (lc.1, lc.2, len)

/-- `dst[i] = v` on a Rust slice: out-of-bounds indexing panics. -/
def setChecked (dst : List Nat) (i v : Nat) : Except Err (List Nat) :=
  if i < dst.length then .ok (dst.set i v) else .error .panic

/-- `chunk[i]` on a Rust slice: out-of-bounds indexing panics. -/
def getChecked (chunk : List Nat) (i : Nat) : Except Err Nat :=
  if h : i < chunk.length then .ok (chunk.get ⟨i, h⟩) else .error .panic

/-- The inner interleave loop `for i in 0..ulens[j] { dst[i*n+j] = t[j][i] }`
of `rans_decode_stripe`, countdown form: `k` iterations remain, `i` is the
current index. -/
def writeChunkGo (n j : Nat) (chunk : List Nat) : Nat → Nat → List Nat → Except Err (List Nat)
  | 0, _, dst => .ok dst
  | k + 1, i, dst =>
      match getChecked chunk i with
      | .error e => .error e
      | .ok v =>
          match setChecked dst (i * n + j) v with
          | .error e => .error e
          | .ok dst' => writeChunkGo n j chunk k (i + 1) dst'

/-- The outer interleave loop of `rans_decode_stripe` over the per-stripe
`(ulen, chunk)` pairs, stripe index `j` increasing. -/
def interleaveGo (n : Nat) : List (Nat × List Nat) → Nat → List Nat → Except Err (List Nat)
  | [], _, dst => .ok dst
  | (ulen, chunk) :: rest, j, dst =>
      match writeChunkGo n j chunk ulen 0 dst with
      | .error e => .error e
      | .ok dst' => interleaveGo n rest (j + 1) dst'

/-- The `for _ in 0..x` loop reading the per-stripe compressed lengths. -/
def readClens : Nat → Parser (List Nat)
  | 0 => pure []
  | k + 1 => do
      let c ← read_uint7_usize
      let cs ← readClens k
      pure (c :: cs)

/-- The `for j in 0..x` loop of `rans_decode_stripe`: compute the stripe's
uncompressed length `len / x`, plus one when `len % n > j` (the remainder
is distributed by the lane width `n`, not the stripe count `x`), invoke the
sub-decoder with that length, and record the `(ulen, chunk)` pair.
Countdown form: `k` stripes remain starting at index `j`. -/
def stripeChunks (dec : Nat → Parser (List Nat)) (len x n : Nat) :
    Nat → Nat → Parser (List (Nat × List Nat))
  | 0, _ => pure []
  | k + 1, j => do
      let ulen := len / x + if len % n > j then 1 else 0
      let chunk ← dec ulen
      let rest ← stripeChunks dec len x n k (j + 1)
      pure ((ulen, chunk) :: rest)

/-- `rans_decode_stripe` (decode.rs lines 144–184), with the recursive call
to the top-level decoder abstracted as `dec`: read the stripe count `x`,
the `x` compressed lengths, decode the `x` stripes, then interleave the
`i`-th symbol of stripe `j` to output position `i * n + j` in a zeroed
buffer of length `len`. -/
def rans_decode_stripe (dec : Nat → Parser (List Nat)) (len n : Nat) : Parser (List Nat) := do
  let x ← read_u8
  let _clens ← readClens x
  let ts ← stripeChunks dec len x n x 0
  liftE (interleaveGo n ts 0 (List.replicate len 0))

/-- The body of `decode` (decode.rs lines 16–79), with the recursion used
by the stripe path abstracted as `sub`: read the flag byte; unless
`NO_SIZE`, replace the length hint by a variable-length integer (failing
with a data error when it does not fit the size type); lane count `n` is
32 under `N32`, else 4; under `STRIPE` delegate to `rans_decode_stripe`;
otherwise read pack/RLE meta as flagged, run the core decode
(`CAT` = verbatim copy, `ORDER` = order-1, else order-0), then undo RLE
and PACK.  The `Option` dance mirrors the source's `p`/`n_sym`/`l`/
`rle_meta` locals (`unwrap` on `None` is a panic). -/
def readLenHint (flags len0 : Nat) : Parser Nat :=
  if hasFlag flags FLAG_NO_SIZE then pure len0 else read_uint7_usize

/-- `let n = if flags.contains(Flags::N32) { 32 } else { 4 }`. -/
def laneCount (flags : Nat) : Nat := if hasFlag flags FLAG_N32 then 32 else 4

/-- The working length after the optional pack meta overwrote it. -/
def packNewLen (pmeta : Option (List Nat × Nat × Nat)) (len : Nat) : Nat :=
  match pmeta with
  | some m => m.2.2
  | none => len

/-- The working length after the optional RLE meta overwrote it. -/
def rleNewLen (rmeta : Option (List Bool × List Nat × Nat)) (len : Nat) : Nat :=
  match rmeta with
  | some m => m.2.2
  | none => len

/-- The `if flags.contains(Flags::PACK)` block filling the `p`/`n_sym`
options. -/
def readPackMeta (flags : Nat) : Parser (Option (List Nat × Nat × Nat)) :=
  if hasFlag flags FLAG_PACK then do
    let m ← decode_pack_meta
    pure (some m)
  else pure none

/-- The `if flags.contains(Flags::RLE)` block filling the `l`/`rle_meta`
options. -/
def readRleMeta (flags n : Nat) : Parser (Option (List Bool × List Nat × Nat)) :=
  if hasFlag flags FLAG_RLE then do
    let m ← decode_rle_meta n
    pure (some m)
  else pure none

/-- The core decode into the allocated buffer: `CAT` copies verbatim,
`ORDER` selects order-1, otherwise order-0. -/
def coreDecode (flags len n : Nat) : Parser (List Nat) :=
  if hasFlag flags FLAG_CAT then read_exact len
  else if hasFlag flags FLAG_ORDER then order1Decode len n
  else order0Decode len n

/-- The post-core RLE re-expansion (`l.unwrap()` on `None` is a panic). -/
def undoRle (flags : Nat) (rmeta : Option (List Bool × List Nat × Nat))
    (data : List Nat) (rle_len : Nat) : Parser (List Nat) :=
  if hasFlag flags FLAG_RLE then
    match rmeta with
    | some m => liftE (rleDecode data m.1 m.2.1 rle_len)
    | none => pfail .panic
  else pure data

/-- The post-core PACK re-expansion (`p.unwrap()` on `None` is a panic). -/
def undoPack (flags : Nat) (pmeta : Option (List Nat × Nat × Nat))
    (data : List Nat) (pack_len : Nat) : Parser (List Nat) :=
  if hasFlag flags FLAG_PACK then
    match pmeta with
    | some m => liftE (packDecode data m.1 m.2.1 pack_len)
    | none => pfail .panic
  else pure data

/-- The non-stripe pipeline of `decode`: pack meta, RLE meta, core decode
at the innermost working length, undo RLE back to the pre-RLE length
(`rle_len`), undo PACK back to the original declared length (`pack_len`).
The working lengths are spelled with `packNewLen`/`rleNewLen`: `pack_len`
is `len`, `rle_len` is `packNewLen pmeta len`, and the core decode length
is `rleNewLen rmeta (packNewLen pmeta len)`. -/
def decodeInner (flags len n : Nat) : Parser (List Nat) := do
  let pmeta ← readPackMeta flags
  let rmeta ← readRleMeta flags n
  let data ← coreDecode flags (rleNewLen rmeta (packNewLen pmeta len)) n
  let data ← undoRle flags rmeta data (packNewLen pmeta len)
  let data ← undoPack flags pmeta data len
  pure data

def decodeBody (sub : Nat → Parser (List Nat)) (len0 : Nat) : Parser (List Nat) := do
  let flags ← read_u8
  let len ← readLenHint flags len0
  if hasFlag flags FLAG_STRIPE then rans_decode_stripe sub len (laneCount flags)
  else decodeInner flags len (laneCount flags)

/-- `decode` with explicit recursion fuel; the fuel only bounds the depth
of `STRIPE` nesting (each level consumes at least two bytes before
recursing, so any fuel exceeding the stream length suffices —
`Err.outOfFuel` is unreachable then). -/
def decodeF : Nat → Nat → Parser (List Nat)
  | 0, _ => pfail .outOfFuel
  | fuel + 1, len0 => decodeBody (fun ulen => decodeF fuel ulen) len0

/-- `decode` (decode.rs lines 16–79). -/
def decode (len : Nat) : Parser (List Nat) := fun bs => decodeF (bs.length + 1) len bs

/-- A reader is deterministic over the bytes it consumes: on success it
splits its input into a consumed prefix and the leftover, its result
depends only on the consumed prefix, and running it on a strict prefix of
the consumed bytes fails with `UnexpectedEof`. -/
def Det {α : Type} (p : Parser α) : Prop :=
  ∀ bs a rest, p bs = .ok (a, rest) →
    ∃ c, bs = c ++ rest ∧ (∀ tail, p (c ++ tail) = .ok (a, tail)) ∧
      ∀ k, k < c.length → p (c.take k) = .error .eof

/-- The golden test vector of `test_decode_uncompressed`
(decode.rs lines 314–326): flags `CAT`, length 7, the bytes of
`"noodles"`. -/
def catVec : List Nat := [0x20, 0x07, 0x6e, 0x6f, 0x6f, 0x64, 0x6c, 0x65, 0x73]

/-- The bytes of `"noodles"`. -/
def noodlesBytes : List Nat := [0x6e, 0x6f, 0x6f, 0x64, 0x6c, 0x65, 0x73]

/-- A stream whose in-band uncompressed length (a variable-length integer
spanning ten continuation bytes) equals `2^67`, exceeding the 64-bit size
type. -/
def hugeLenVec : List Nat :=
  [0x00, 0x90, 0x80, 0x80, 0x80, 0x80, 0x80, 0x80, 0x80, 0x80, 0x00]

/-- A complete stripe-flagged stream with stripe count `x = 8` different
from the lane width `n = 4`: flags `STRIPE`, length 16, eight compressed
lengths, eight `CAT` sub-streams of two bytes each. -/
def stripeGapVec : List Nat :=
  [0x08, 0x10, 0x08, 4, 4, 4, 4, 4, 4, 4, 4] ++
    [0x20, 0x02, 10, 20] ++ [0x20, 0x02, 11, 21] ++ [0x20, 0x02, 12, 22] ++
    [0x20, 0x02, 13, 23] ++ [0x20, 0x02, 14, 24] ++ [0x20, 0x02, 15, 25] ++
    [0x20, 0x02, 16, 26] ++ [0x20, 0x02, 17, 27]

/-- The stripe body (after the flag and length bytes) of a well-formed
stream with stripe count `x = 4` equal to the lane width, total length 7,
four `CAT` sub-streams holding the columns of `"noodles"`. -/
def stripeOkBody : List Nat :=
  [0x04, 0x04, 0x04, 0x04, 0x03] ++
    [0x20, 0x02, 0x6e, 0x6c] ++ [0x20, 0x02, 0x6f, 0x65] ++
    [0x20, 0x02, 0x6f, 0x73] ++ [0x20, 0x01, 0x64]

/-- A pack-meta block whose symbol count byte is 17 (outside 1–16):
the count, a 17-entry symbol table, and a one-byte pre-pack length. -/
def packMeta17Vec : List Nat := 17 :: (List.range 17 ++ [5])

end RansNx16

namespace RansNx16

theorem pure_apply {α : Type} (a : α) (bs : List Nat) :
    (pure a : Parser α) bs = .ok (a, bs) := rfl

theorem bind_apply {α β : Type} (p : Parser α) (f : α → Parser β) (bs : List Nat) :
    (p >>= f) bs =
      match p bs with
      | .ok (a, bs') => f a bs'
      | .error e => .error e := rfl

theorem det_pure {α : Type} (a : α) : Det (pure a : Parser α) := by
  intro bs b rest h
  rw [pure_apply] at h
  obtain ⟨rfl, rfl⟩ : a = b ∧ bs = rest := by simpa using h
  exact ⟨[], rfl, fun tail => rfl, fun k hk => absurd hk (by simp)⟩

theorem det_pfail {α : Type} (e : Err) : Det (pfail e : Parser α) := by
  intro bs a rest h
  exact absurd h (by simp [pfail])

theorem det_liftE {α : Type} (x : Except Err α) : Det (liftE x) := by
  cases x with
  | ok a => exact det_pure a
  | error e => exact det_pfail e

theorem det_ite {α : Type} {c : Prop} [Decidable c] {p q : Parser α}
    (hp : Det p) (hq : Det q) : Det (if c then p else q) := by
  split
  · exact hp
  · exact hq

theorem det_bind {α β : Type} {p : Parser α} {f : α → Parser β}
    (hp : Det p) (hf : ∀ a, Det (f a)) : Det (p >>= f) := by
  intro bs b rest h
  rw [bind_apply] at h
  cases hpbs : p bs with
  | error e => rw [hpbs] at h; exact absurd h (by simp)
  | ok ar =>
    obtain ⟨a, bs₁⟩ := ar
    rw [hpbs] at h
    obtain ⟨c₁, rfl, ext₁, tr₁⟩ := hp _ a bs₁ hpbs
    obtain ⟨c₂, rfl, ext₂, tr₂⟩ := hf a _ b rest h
    refine ⟨c₁ ++ c₂, by rw [List.append_assoc], ?_, ?_⟩
    · intro tail
      rw [bind_apply, List.append_assoc, ext₁ (c₂ ++ tail)]
      exact ext₂ tail
    · intro k hk
      simp only [List.length_append] at hk
      by_cases hkc : k < c₁.length
      · have htake : (c₁ ++ c₂).take k = c₁.take k := by
          rw [List.take_append_eq_append_take, Nat.sub_eq_zero_of_le (le_of_lt hkc)]
          simp
        rw [bind_apply, htake, tr₁ k hkc]
      · push_neg at hkc
        obtain ⟨m, rfl⟩ : ∃ m, k = c₁.length + m := ⟨k - c₁.length, by omega⟩
        have hm : m < c₂.length := by omega
        have htake : (c₁ ++ c₂).take (c₁.length + m) = c₁ ++ c₂.take m := by
          rw [List.take_append_eq_append_take]
          simp
        rw [bind_apply, htake, ext₁ (c₂.take m)]
        exact tr₂ m hm

theorem det_read_u8 : Det read_u8 := by
  intro bs a rest h
  cases bs with
  | nil => exact absurd h (by simp [read_u8])
  | cons b bs' =>
    obtain ⟨rfl, rfl⟩ : b % 256 = a ∧ bs' = rest := by simpa [read_u8] using h
    refine ⟨[b], rfl, fun tail => rfl, ?_⟩
    intro k hk
    have hk0 : k = 0 := by simpa using hk
    subst hk0
    rfl

theorem det_read_u16_le : Det read_u16_le := by
  intro bs a rest h
  match bs with
  | [] => exact absurd h (by simp [read_u16_le])
  | [b0] => exact absurd h (by simp [read_u16_le])
  | b0 :: b1 :: bs' =>
    obtain ⟨rfl, rfl⟩ : b0 % 256 + 256 * (b1 % 256) = a ∧ bs' = rest := by
      simpa [read_u16_le] using h
    refine ⟨[b0, b1], rfl, fun tail => rfl, ?_⟩
    intro k hk
    simp only [List.length_cons, List.length_nil] at hk
    interval_cases k <;> rfl

theorem det_read_u32_le : Det read_u32_le := by
  intro bs a rest h
  match bs with
  | [] => exact absurd h (by simp [read_u32_le])
  | [b0] => exact absurd h (by simp [read_u32_le])
  | [b0, b1] => exact absurd h (by simp [read_u32_le])
  | [b0, b1, b2] => exact absurd h (by simp [read_u32_le])
  | b0 :: b1 :: b2 :: b3 :: bs' =>
    obtain ⟨rfl, rfl⟩ :
        b0 % 256 + 256 * (b1 % 256) + 65536 * (b2 % 256) + 16777216 * (b3 % 256) = a ∧
          bs' = rest := by
      simpa [read_u32_le] using h
    refine ⟨[b0, b1, b2, b3], rfl, fun tail => rfl, ?_⟩
    intro k hk
    simp only [List.length_cons, List.length_nil] at hk
    interval_cases k <;> rfl

theorem det_read_exact (k : Nat) : Det (read_exact k) := by
  intro bs a rest h
  rw [read_exact] at h
  split at h
  case isTrue hle =>
    obtain ⟨rfl, rfl⟩ : (bs.take k).map (· % 256) = a ∧ bs.drop k = rest := by simpa using h
    have hlen : (bs.take k).length = k := by simp [List.length_take]; omega
    refine ⟨bs.take k, (List.take_append_drop k bs).symm, ?_, ?_⟩
    · intro tail
      rw [read_exact]
      have hle' : k ≤ (bs.take k ++ tail).length := by simp [hlen]
      rw [if_pos hle']
      have h1 : (bs.take k ++ tail).take k = bs.take k := by
        rw [List.take_append_eq_append_take, hlen]
        simp [List.take_of_length_le (le_of_eq hlen)]
      have h2 : (bs.take k ++ tail).drop k = tail := by
        rw [List.drop_append_eq_append_drop, hlen]
        simp [List.drop_of_length_le (le_of_eq hlen)]
      rw [h1, h2]
    · intro j hj
      rw [hlen] at hj
      rw [read_exact]
      have : ¬ k ≤ ((bs.take k).take j).length := by
        simp only [List.length_take]
        omega
      rw [if_neg this]
  case isFalse => exact absurd h (by simp)

theorem det_read_uint7Go :
    ∀ (bs : List Nat) (acc a : Nat) (rest : List Nat),
      read_uint7Go bs acc = .ok (a, rest) →
      ∃ c, bs = c ++ rest ∧ (∀ tail, read_uint7Go (c ++ tail) acc = .ok (a, tail)) ∧
        ∀ k, k < c.length → read_uint7Go (c.take k) acc = .error .eof := by
  intro bs
  induction bs with
  | nil => intro acc a rest h; exact absurd h (by simp [read_uint7Go])
  | cons b bs' ih =>
    intro acc a rest h
    rw [read_uint7Go] at h
    split at h
    case isTrue hb =>
      obtain ⟨rfl, rfl⟩ : acc * 128 + b % 256 = a ∧ bs' = rest := by simpa using h
      refine ⟨[b], rfl, fun tail => by
        simp only [List.singleton_append]
        rw [read_uint7Go, if_pos hb], ?_⟩
      intro k hk
      have hk0 : k = 0 := by simpa using hk
      subst hk0
      rfl
    case isFalse hb =>
      obtain ⟨c', rfl, ext', tr'⟩ := ih _ a rest h
      refine ⟨b :: c', rfl, ?_, ?_⟩
      · intro tail
        rw [List.cons_append, read_uint7Go, if_neg hb]
        exact ext' tail
      · intro k hk
        cases k with
        | zero => rfl
        | succ k' =>
          have hk' : k' < c'.length := by simpa using hk
          rw [List.take_succ_cons, read_uint7Go, if_neg hb]
          exact tr' k' hk'

theorem det_read_uint7 : Det read_uint7 := by
  intro bs a rest h
  exact det_read_uint7Go bs 0 a rest h

theorem alphaRead_cons (b : Nat) (rest : List Nat) (a : List Bool) (last_sym : Nat) :
    alphaRead (b :: rest) a last_sym =
      if last_sym < 255 ∧ b % 256 = last_sym + 1 then
        match rest with
        | [] => .error .eof
        | rb :: rest' =>
            match alphaRun (rb % 256) (a.set last_sym true) (b % 256) with
            | .inl (a'', rleLeft) => .ok ((a'', rleLeft, false), rest')
            | .inr (a'', sym') => alphaRead rest' a'' sym'
      else
        if b % 256 = 0 then .ok ((a.set last_sym true, 0, true), rest)
        else alphaRead rest (a.set last_sym true) (b % 256) := by
  cases rest with
  | nil =>
    rw [alphaRead.eq_2]
  | cons rb rest' =>
    rw [alphaRead.eq_3]

theorem det_alphaReadAux :
    ∀ (n : Nat) (bs : List Nat), bs.length ≤ n →
      ∀ (a : List Bool) (last_sym : Nat) res rest,
        alphaRead bs a last_sym = .ok (res, rest) →
        ∃ c, bs = c ++ rest ∧ (∀ tail, alphaRead (c ++ tail) a last_sym = .ok (res, tail)) ∧
          ∀ k, k < c.length → alphaRead (c.take k) a last_sym = .error .eof := by
  intro n
  induction n with
  | zero =>
    intro bs hlen a last_sym res rest h
    have hbs : bs = [] := List.length_eq_zero.mp (Nat.le_zero.mp hlen)
    subst hbs
    exact absurd h (by simp [alphaRead])
  | succ n ih =>
    intro bs hlen a last_sym res rest h
    cases bs with
    | nil => exact absurd h (by simp [alphaRead])
    | cons b bs₀ =>
      rw [alphaRead_cons] at h
      split at h
      case isTrue hguard =>
        cases bs₀ with
        | nil => exact absurd h (by simp)
        | cons rb bs₁ =>
          cases halpha : alphaRun (rb % 256) (a.set last_sym true) (b % 256) with
          | inl q =>
            obtain ⟨a'', rleLeft⟩ := q
            simp only [halpha] at h
            obtain ⟨rfl, rfl⟩ :
                ((a'', rleLeft, false) : List Bool × Nat × Bool) = res ∧ bs₁ = rest := by
              simpa using h
            refine ⟨[b, rb], rfl, ?_, ?_⟩
            · intro tail
              show alphaRead (b :: rb :: tail) a last_sym = _
              rw [alphaRead_cons, if_pos hguard]
              show (match alphaRun (rb % 256) (a.set last_sym true) (b % 256) with
                | .inl (a'', rleLeft) => Except.ok ((a'', rleLeft, false), tail)
                | .inr (a'', sym') => alphaRead tail a'' sym') = _
              rw [halpha]
            · intro k hk
              simp only [List.length_cons, List.length_nil] at hk
              interval_cases k
              · rfl
              · show alphaRead [b] a last_sym = _
                rw [alphaRead_cons, if_pos hguard]
          | inr q =>
            obtain ⟨a'', sym'⟩ := q
            simp only [halpha] at h
            have hlen' : bs₁.length ≤ n := by
              simp only [List.length_cons] at hlen
              omega
            obtain ⟨c₁, rfl, ext₁, tr₁⟩ := ih bs₁ hlen' a'' sym' res rest h
            refine ⟨b :: rb :: c₁, rfl, ?_, ?_⟩
            · intro tail
              show alphaRead (b :: rb :: (c₁ ++ tail)) a last_sym = _
              rw [alphaRead_cons, if_pos hguard]
              show (match alphaRun (rb % 256) (a.set last_sym true) (b % 256) with
                | .inl (a'', rleLeft) => Except.ok ((a'', rleLeft, false), c₁ ++ tail)
                | .inr (a'', sym') => alphaRead (c₁ ++ tail) a'' sym') = _
              rw [halpha]
              exact ext₁ tail
            · intro k hk
              simp only [List.length_cons] at hk
              match k, hk with
              | 0, _ => rfl
              | 1, _ =>
                show alphaRead [b] a last_sym = _
                rw [alphaRead_cons, if_pos hguard]
              | (k' + 2), hk =>
                show alphaRead (b :: rb :: c₁.take k') a last_sym = _
                rw [alphaRead_cons, if_pos hguard]
                show (match alphaRun (rb % 256) (a.set last_sym true) (b % 256) with
                  | .inl (a'', rleLeft) => Except.ok ((a'', rleLeft, false), c₁.take k')
                  | .inr (a'', sym') => alphaRead (c₁.take k') a'' sym') = _
                rw [halpha]
                exact tr₁ k' (by omega)
      case isFalse hguard =>
        split at h
        case isTrue hzero =>
          obtain ⟨rfl, rfl⟩ :
              ((a.set last_sym true, 0, true) : List Bool × Nat × Bool) = res ∧ bs₀ = rest := by
            simpa using h
          refine ⟨[b], rfl, ?_, ?_⟩
          · intro tail
            show alphaRead (b :: tail) a last_sym = _
            rw [alphaRead_cons, if_neg hguard, if_pos hzero]
          · intro k hk
            have hk0 : k = 0 := by simpa using hk
            subst hk0
            rfl
        case isFalse hzero =>
          have hlen' : bs₀.length ≤ n := by
            simp only [List.length_cons] at hlen
            omega
          obtain ⟨c₁, rfl, ext₁, tr₁⟩ := ih bs₀ hlen' (a.set last_sym true) (b % 256) res rest h
          refine ⟨b :: c₁, rfl, ?_, ?_⟩
          · intro tail
            show alphaRead (b :: (c₁ ++ tail)) a last_sym = _
            rw [alphaRead_cons, if_neg hguard, if_neg hzero]
            exact ext₁ tail
          · intro k hk
            simp only [List.length_cons] at hk
            match k, hk with
            | 0, _ => rfl
            | (k' + 1), hk =>
              show alphaRead (b :: c₁.take k') a last_sym = _
              rw [alphaRead_cons, if_neg hguard, if_neg hzero]
              exact tr₁ k' (by omega)

theorem det_read_alphabetFull : Det read_alphabetFull := by
  intro bs res rest h
  cases bs with
  | nil => exact absurd h (by simp [read_alphabetFull])
  | cons b bs₀ =>
    rw [read_alphabetFull] at h
    obtain ⟨c₁, rfl, ext₁, tr₁⟩ :=
      det_alphaReadAux bs₀.length bs₀ le_rfl (List.replicate 256 false) (b % 256) res rest h
    refine ⟨b :: c₁, rfl, ?_, ?_⟩
    · intro tail
      show read_alphabetFull (b :: (c₁ ++ tail)) = _
      rw [read_alphabetFull]
      exact ext₁ tail
    · intro k hk
      simp only [List.length_cons] at hk
      match k, hk with
      | 0, _ => rfl
      | (k' + 1), hk =>
        show read_alphabetFull (b :: c₁.take k') = _
        rw [read_alphabetFull]
        exact tr₁ k' (by omega)

theorem det_read_alphabet : Det read_alphabet := by
  intro bs alpha rest h
  rw [read_alphabet] at h
  cases hfull : read_alphabetFull bs with
  | error e => rw [hfull] at h; exact absurd h (by simp)
  | ok q =>
    obtain ⟨⟨a0, rle0, fresh0⟩, rest0⟩ := q
    rw [hfull] at h
    obtain ⟨rfl, rfl⟩ : a0 = alpha ∧ rest0 = rest := by simpa using h
    obtain ⟨c, rfl, ext₁, tr₁⟩ := det_read_alphabetFull _ _ _ hfull
    refine ⟨c, rfl, ?_, ?_⟩
    · intro tail
      rw [read_alphabet, ext₁ tail]
    · intro k hk
      rw [read_alphabet, tr₁ k hk]

theorem alphaRead_ok_or_eof :
    ∀ (n : Nat) (bs : List Nat), bs.length ≤ n →
      ∀ (a : List Bool) (last_sym : Nat),
        (∃ alpha rleF fresh rest, alphaRead bs a last_sym = .ok ((alpha, rleF, fresh), rest) ∧
          (fresh = true → rleF = 0)) ∨
        alphaRead bs a last_sym = .error .eof := by
  intro n
  induction n with
  | zero =>
    intro bs hlen a last_sym
    have hbs : bs = [] := List.length_eq_zero.mp (Nat.le_zero.mp hlen)
    subst hbs
    exact Or.inr (by simp [alphaRead])
  | succ n ih =>
    intro bs hlen a last_sym
    cases bs with
    | nil => exact Or.inr (by simp [alphaRead])
    | cons b bs₀ =>
      rw [alphaRead_cons]
      split
      case isTrue hguard =>
        cases bs₀ with
        | nil => exact Or.inr rfl
        | cons rb bs₁ =>
          cases halpha : alphaRun (rb % 256) (a.set last_sym true) (b % 256) with
          | inl q =>
            obtain ⟨a'', rleLeft⟩ := q
            simp only [halpha]
            exact Or.inl ⟨a'', rleLeft, false, bs₁, rfl, by simp⟩
          | inr q =>
            obtain ⟨a'', sym'⟩ := q
            simp only [halpha]
            have hlen' : bs₁.length ≤ n := by
              simp only [List.length_cons] at hlen
              omega
            exact ih bs₁ hlen' a'' sym'
      case isFalse hguard =>
        split
        case isTrue hzero =>
          exact Or.inl ⟨a.set last_sym true, 0, true, bs₀, rfl, fun _ => rfl⟩
        case isFalse hzero =>
          have hlen' : bs₀.length ≤ n := by
            simp only [List.length_cons] at hlen
            omega
          exact ih bs₀ hlen' (a.set last_sym true) (b % 256)

theorem det_read_uint7_usize : Det read_uint7_usize := by
  unfold read_uint7_usize
  exact det_bind det_read_uint7 fun v => det_ite (det_pure v) (det_pfail _)

theorem det_rans_renorm_nx16 (r : Nat) : Det (rans_renorm_nx16 r) := by
  unfold rans_renorm_nx16
  exact det_ite (det_bind det_read_u16_le fun w => det_pure _) (det_pure _)

theorem det_readFreqs : ∀ ss : List Nat, Det (readFreqs ss) := by
  intro ss
  induction ss with
  | nil => exact det_pure []
  | cons s ss ih =>
    rw [readFreqs]
    exact det_bind det_read_uint7 fun f => det_bind ih fun rest => det_pure _

theorem det_readStates : ∀ n : Nat, Det (readStates n) := by
  intro n
  induction n with
  | zero => exact det_pure []
  | succ k ih =>
    rw [readStates]
    exact det_bind det_read_u32_le fun s => det_bind ih fun rest => det_pure _

theorem det_order0Go (cum freqs : List Nat) (bits n : Nat) :
    ∀ (k i : Nat) (states : List Nat), Det (order0Go cum freqs bits n k i states) := by
  intro k
  induction k with
  | zero => intro i states; exact det_pure []
  | succ k ih =>
    intro i states
    rw [order0Go]
    exact det_bind (det_rans_renorm_nx16 _) fun r2 => det_bind (ih _ _) fun rest => det_pure _

theorem det_order0Body (freqs : List Nat) (len n : Nat) : Det (order0Body freqs len n) := by
  unfold order0Body
  cases hrb : ransBits ((cumTable freqs).getD 256 0) with
  | none => exact det_pfail _
  | some bits =>
    exact det_bind (det_readStates n) fun states => det_order0Go _ _ _ _ _ _ _

theorem det_order0Decode (len n : Nat) : Det (order0Decode len n) := by
  unfold order0Decode
  refine det_bind det_read_alphabet fun alphabet => ?_
  exact det_bind (det_readFreqs _) fun fs => det_order0Body _ _ _

theorem det_readCtxTables : ∀ cs : List Nat, Det (readCtxTables cs) := by
  intro cs
  induction cs with
  | nil => exact det_pure []
  | cons c cs ih =>
    rw [readCtxTables]
    refine det_bind det_read_alphabet fun alphabet => ?_
    refine det_bind (det_readFreqs _) fun fs => ?_
    cases hrb : ransBits ((cumTable (freqTable fs)).getD 256 0) with
    | none => exact det_pfail _
    | some bits => exact det_bind ih fun rest => det_pure _

theorem det_order1Go (tables : List (Nat × (List Nat × List Nat × Nat))) (n : Nat) :
    ∀ (k i : Nat) (states ctxs : List Nat), Det (order1Go tables n k i states ctxs) := by
  intro k
  induction k with
  | zero => intro i states ctxs; exact det_pure []
  | succ k ih =>
    intro i states ctxs
    rw [order1Go]
    cases hfind : tables.find? (fun q => q.1 == ctxs.getD (i % n) 0) with
    | none =>
      simp only [hfind]
      exact det_pfail _
    | some q =>
      obtain ⟨c, cum, freqs, bits⟩ := q
      simp only [hfind]
      exact det_bind (det_rans_renorm_nx16 _) fun r2 => det_bind (ih _ _ _) fun rest => det_pure _

theorem det_order1Decode (len n : Nat) : Det (order1Decode len n) := by
  unfold order1Decode
  refine det_bind det_read_alphabet fun ctxAlphabet => ?_
  refine det_bind (det_readCtxTables _) fun tables => ?_
  exact det_bind (det_readStates n) fun states => det_order1Go _ _ _ _ _ _

theorem det_decode_pack_meta : Det decode_pack_meta := by
  unfold decode_pack_meta
  refine det_bind det_read_u8 fun n => ?_
  refine det_ite (det_pfail _) ?_
  exact det_bind (det_read_exact n) fun p => det_bind det_read_uint7_usize fun len => det_pure _

theorem det_rleMetaBytes (rml n : Nat) : Det (rleMetaBytes rml n) := by
  unfold rleMetaBytes
  refine det_ite (det_read_exact _) ?_
  refine det_bind det_read_uint7_usize fun cml => ?_
  exact det_bind (det_read_exact cml) fun buf => det_liftE _

theorem det_decode_rle_meta (n : Nat) : Det (decode_rle_meta n) := by
  unfold decode_rle_meta
  refine det_bind det_read_uint7_usize fun rml => ?_
  refine det_bind det_read_uint7_usize fun len => ?_
  refine det_bind (det_rleMetaBytes rml n) fun rle_meta => ?_
  exact det_bind (det_liftE _) fun lc => det_pure _

theorem det_readClens : ∀ x : Nat, Det (readClens x) := by
  intro x
  induction x with
  | zero => exact det_pure []
  | succ k ih =>
    rw [readClens]
    exact det_bind det_read_uint7_usize fun c => det_bind ih fun cs => det_pure _

theorem det_stripeChunks {dec : Nat → Parser (List Nat)} (hdec : ∀ u, Det (dec u))
    (len x n : Nat) : ∀ (k j : Nat), Det (stripeChunks dec len x n k j) := by
  intro k
  induction k with
  | zero => intro j; exact det_pure []
  | succ k ih =>
    intro j
    rw [stripeChunks]
    exact det_bind (hdec _) fun chunk => det_bind (ih _) fun rest => det_pure _

theorem det_rans_decode_stripe {dec : Nat → Parser (List Nat)} (hdec : ∀ u, Det (dec u))
    (len n : Nat) : Det (rans_decode_stripe dec len n) := by
  unfold rans_decode_stripe
  refine det_bind det_read_u8 fun x => ?_
  refine det_bind (det_readClens x) fun cl => ?_
  exact det_bind (det_stripeChunks hdec _ _ _ _ _) fun ts => det_liftE _

theorem det_readLenHint (flags len0 : Nat) : Det (readLenHint flags len0) := by
  unfold readLenHint
  exact det_ite (det_pure _) det_read_uint7_usize

theorem det_readPackMeta (flags : Nat) : Det (readPackMeta flags) := by
  unfold readPackMeta
  exact det_ite (det_bind det_decode_pack_meta fun m => det_pure _) (det_pure _)

theorem det_readRleMeta (flags n : Nat) : Det (readRleMeta flags n) := by
  unfold readRleMeta
  exact det_ite (det_bind (det_decode_rle_meta n) fun m => det_pure _) (det_pure _)

theorem det_coreDecode (flags len n : Nat) : Det (coreDecode flags len n) := by
  unfold coreDecode
  exact det_ite (det_read_exact _) (det_ite (det_order1Decode _ _) (det_order0Decode _ _))

theorem det_undoRle (flags : Nat) (rmeta : Option (List Bool × List Nat × Nat))
    (data : List Nat) (rle_len : Nat) : Det (undoRle flags rmeta data rle_len) := by
  unfold undoRle
  refine det_ite ?_ (det_pure _)
  cases rmeta with
  | some m => exact det_liftE _
  | none => exact det_pfail _

theorem det_undoPack (flags : Nat) (pmeta : Option (List Nat × Nat × Nat))
    (data : List Nat) (pack_len : Nat) : Det (undoPack flags pmeta data pack_len) := by
  unfold undoPack
  refine det_ite ?_ (det_pure _)
  cases pmeta with
  | some m => exact det_liftE _
  | none => exact det_pfail _

theorem det_decodeInner (flags len n : Nat) : Det (decodeInner flags len n) := by
  unfold decodeInner
  refine det_bind (det_readPackMeta flags) fun pmeta => ?_
  refine det_bind (det_readRleMeta flags _) fun rmeta => ?_
  refine det_bind (det_coreDecode flags _ _) fun data => ?_
  refine det_bind (det_undoRle flags rmeta data _) fun data2 => ?_
  exact det_bind (det_undoPack flags pmeta data2 _) fun data3 => det_pure _

theorem det_decodeBody {sub : Nat → Parser (List Nat)} (hsub : ∀ u, Det (sub u))
    (len0 : Nat) : Det (decodeBody sub len0) := by
  unfold decodeBody
  refine det_bind det_read_u8 fun flags => ?_
  refine det_bind (det_readLenHint flags len0) fun len => ?_
  exact det_ite (det_rans_decode_stripe hsub _ _) (det_decodeInner flags _ _)

theorem det_decodeF : ∀ (fuel len : Nat), Det (decodeF fuel len) := by
  intro fuel
  induction fuel with
  | zero => intro len; exact det_pfail _
  | succ fuel ih =>
    intro len
    rw [decodeF]
    exact det_decodeBody (fun u => ih u) len

theorem bind_ok {α β : Type} {p : Parser α} {f : α → Parser β} {bs : List Nat} {b : β}
    {rest : List Nat} (h : (p >>= f) bs = .ok (b, rest)) :
    ∃ a bs₁, p bs = .ok (a, bs₁) ∧ f a bs₁ = .ok (b, rest) := by
  rw [bind_apply] at h
  cases hp : p bs with
  | error e => rw [hp] at h; exact absurd h (by simp)
  | ok q =>
    obtain ⟨a, bs₁⟩ := q
    rw [hp] at h
    exact ⟨a, bs₁, rfl, h⟩

theorem pure_ok {α : Type} {a b : α} {bs rest : List Nat}
    (h : (pure a : Parser α) bs = .ok (b, rest)) : a = b ∧ bs = rest := by
  rw [pure_apply] at h
  simpa using h

theorem liftE_ok {α : Type} {x : Except Err α} {b : α} {bs rest : List Nat}
    (h : liftE x bs = .ok (b, rest)) : x = .ok b ∧ bs = rest := by
  cases x with
  | ok a =>
    obtain ⟨rfl, rfl⟩ := pure_ok h
    exact ⟨rfl, rfl⟩
  | error e => exact absurd h (by simp [liftE, pfail])

theorem pfail_not_ok {α : Type} {e : Err} {b : α} {bs rest : List Nat} :
    ¬ (pfail e : Parser α) bs = .ok (b, rest) := by
  simp [pfail]

theorem read_exact_length {k : Nat} {bs out rest : List Nat}
    (h : read_exact k bs = .ok (out, rest)) : out.length = k := by
  rw [read_exact] at h
  split at h
  case isTrue hle =>
    obtain ⟨rfl, rfl⟩ : (bs.take k).map (· % 256) = out ∧ bs.drop k = rest := by simpa using h
    simp [List.length_take]
    omega
  case isFalse => exact absurd h (by simp)

theorem order0Go_length (cum freqs : List Nat) (bits n : Nat) :
    ∀ (k i : Nat) (states bs out rest : List Nat),
      order0Go cum freqs bits n k i states bs = .ok (out, rest) → out.length = k := by
  intro k
  induction k with
  | zero =>
    intro i states bs out rest h
    obtain ⟨rfl, rfl⟩ := pure_ok h
    rfl
  | succ k ih =>
    intro i states bs out rest h
    rw [order0Go] at h
    obtain ⟨r2, bs₁, h1, h2⟩ := bind_ok h
    obtain ⟨tl, bs₂, h3, h4⟩ := bind_ok h2
    obtain ⟨rfl, rfl⟩ := pure_ok h4
    simp [ih _ _ _ _ _ h3]

theorem order1Go_length (tables : List (Nat × (List Nat × List Nat × Nat))) (n : Nat) :
    ∀ (k i : Nat) (states ctxs bs out rest : List Nat),
      order1Go tables n k i states ctxs bs = .ok (out, rest) → out.length = k := by
  intro k
  induction k with
  | zero =>
    intro i states ctxs bs out rest h
    obtain ⟨rfl, rfl⟩ := pure_ok h
    rfl
  | succ k ih =>
    intro i states ctxs bs out rest h
    rw [order1Go] at h
    cases hfind : tables.find? (fun q => q.1 == ctxs.getD (i % n) 0) with
    | none =>
      simp only [hfind] at h
      exact absurd h pfail_not_ok
    | some q =>
      obtain ⟨c, cum, freqs, bits⟩ := q
      simp only [hfind] at h
      obtain ⟨r2, bs₁, h1, h2⟩ := bind_ok h
      obtain ⟨tl, bs₂, h3, h4⟩ := bind_ok h2
      obtain ⟨rfl, rfl⟩ := pure_ok h4
      simp [ih _ _ _ _ _ _ h3]

theorem order0Body_length {freqs : List Nat} {len n : Nat} {bs out rest : List Nat}
    (h : order0Body freqs len n bs = .ok (out, rest)) : out.length = len := by
  unfold order0Body at h
  cases hrb : ransBits ((cumTable freqs).getD 256 0) with
  | none =>
    simp only [hrb] at h
    exact absurd h pfail_not_ok
  | some bits =>
    simp only [hrb] at h
    obtain ⟨states, bs₃, h5, h6⟩ := bind_ok h
    exact order0Go_length _ _ _ _ _ _ _ _ _ _ h6

theorem order0Decode_length {len n : Nat} {bs out rest : List Nat}
    (h : order0Decode len n bs = .ok (out, rest)) : out.length = len := by
  unfold order0Decode at h
  obtain ⟨alphabet, bs₁, h1, h2⟩ := bind_ok h
  obtain ⟨fs, bs₂, h3, h4⟩ := bind_ok h2
  exact order0Body_length h4

theorem order1Decode_length {len n : Nat} {bs out rest : List Nat}
    (h : order1Decode len n bs = .ok (out, rest)) : out.length = len := by
  unfold order1Decode at h
  obtain ⟨ctxAlphabet, bs₁, h1, h2⟩ := bind_ok h
  obtain ⟨tables, bs₂, h3, h4⟩ := bind_ok h2
  obtain ⟨states, bs₃, h5, h6⟩ := bind_ok h4
  exact order1Go_length _ _ _ _ _ _ _ _ _ h6

theorem rleDecode_length {data : List Nat} {l : List Bool} {meta : List Nat} {rle_len : Nat}
    {out : List Nat} (h : rleDecode data l meta rle_len = .ok out) : out.length = rle_len := by
  unfold rleDecode at h
  cases hgo : rleGo l data meta with
  | error e => simp only [hgo] at h; exact absurd h (by simp)
  | ok o =>
    simp only [hgo] at h
    split at h
    case isTrue hl =>
      obtain rfl : o = out := by simpa using h
      exact hl
    case isFalse => exact absurd h (by simp)

theorem packDecode_length {data p : List Nat} {n_sym len : Nat} {out : List Nat}
    (h : packDecode data p n_sym len = .ok out) : out.length = len := by
  unfold packDecode at h
  cases hw : packWidth n_sym with
  | none => simp only [hw] at h; exact absurd h (by simp)
  | some w =>
    simp only [hw] at h
    split at h
    case isTrue =>
      obtain rfl : List.replicate len (p.getD 0 0) = out := by simpa using h
      simp
    case isFalse =>
      split at h
      case isTrue =>
        obtain rfl :
            (List.range len).map
              (fun i => p.getD (data.getD (i / (8 / w)) 0 / 2 ^ (w * (i % (8 / w))) % 2 ^ w) 0) = out := by
          simpa using h
        simp
      case isFalse => exact absurd h (by simp)

theorem setChecked_length {dst : List Nat} {i v : Nat} {out : List Nat}
    (h : setChecked dst i v = .ok out) : out.length = dst.length := by
  unfold setChecked at h
  split at h
  case isTrue =>
    obtain rfl : dst.set i v = out := by simpa using h
    simp
  case isFalse => exact absurd h (by simp)

theorem writeChunkGo_length {n j : Nat} {chunk : List Nat} :
    ∀ (k i : Nat) (dst out : List Nat), writeChunkGo n j chunk k i dst = .ok out →
      out.length = dst.length := by
  intro k
  induction k with
  | zero =>
    intro i dst out h
    obtain rfl : dst = out := by simpa [writeChunkGo] using h
    rfl
  | succ k ih =>
    intro i dst out h
    rw [writeChunkGo] at h
    cases hget : getChecked chunk i with
    | error e => simp only [hget] at h; exact absurd h (by simp)
    | ok v =>
      simp only [hget] at h
      cases hset : setChecked dst (i * n + j) v with
      | error e => simp only [hset] at h; exact absurd h (by simp)
      | ok dst' =>
        simp only [hset] at h
        rw [ih _ _ _ h]
        exact setChecked_length hset

theorem interleaveGo_length {n : Nat} :
    ∀ (ts : List (Nat × List Nat)) (j : Nat) (dst out : List Nat),
      interleaveGo n ts j dst = .ok out → out.length = dst.length := by
  intro ts
  induction ts with
  | nil =>
    intro j dst out h
    obtain rfl : dst = out := by simpa [interleaveGo] using h
    rfl
  | cons hd tl ih =>
    intro j dst out h
    obtain ⟨ulen, chunk⟩ := hd
    rw [interleaveGo] at h
    cases hw : writeChunkGo n j chunk ulen 0 dst with
    | error e => simp only [hw] at h; exact absurd h (by simp)
    | ok dst' =>
      simp only [hw] at h
      rw [ih _ _ _ h]
      exact writeChunkGo_length _ _ _ _ hw

theorem rans_decode_stripe_length {dec : Nat → Parser (List Nat)} {len n : Nat}
    {bs v rest : List Nat} (h : rans_decode_stripe dec len n bs = .ok (v, rest)) :
    v.length = len := by
  unfold rans_decode_stripe at h
  obtain ⟨x, bs₁, h1, h2⟩ := bind_ok h
  obtain ⟨clens, bs₂, h3, h4⟩ := bind_ok h2
  obtain ⟨ts, bs₃, h5, h6⟩ := bind_ok h4
  obtain ⟨hok, rfl⟩ := liftE_ok h6
  rw [interleaveGo_length _ _ _ _ hok]
  simp

theorem readPackMeta_ok {flags : Nat} {bs : List Nat} {pm : Option (List Nat × Nat × Nat)}
    {bs' : List Nat} (h : readPackMeta flags bs = .ok (pm, bs')) :
    (hasFlag flags FLAG_PACK = true ∧ ∃ m, pm = some m ∧ decode_pack_meta bs = .ok (m, bs')) ∨
      (hasFlag flags FLAG_PACK = false ∧ pm = none ∧ bs' = bs) := by
  unfold readPackMeta at h
  split at h
  case isTrue hf =>
    obtain ⟨m, bs₁, hm, hp⟩ := bind_ok h
    obtain ⟨rfl, rfl⟩ := pure_ok hp
    exact Or.inl ⟨hf, m, rfl, hm⟩
  case isFalse hf =>
    obtain ⟨rfl, rfl⟩ := pure_ok h
    exact Or.inr ⟨by simpa using hf, rfl, rfl⟩

theorem readRleMeta_ok {flags n : Nat} {bs : List Nat} {rm : Option (List Bool × List Nat × Nat)}
    {bs' : List Nat} (h : readRleMeta flags n bs = .ok (rm, bs')) :
    (hasFlag flags FLAG_RLE = true ∧ ∃ m, rm = some m ∧ decode_rle_meta n bs = .ok (m, bs')) ∨
      (hasFlag flags FLAG_RLE = false ∧ rm = none ∧ bs' = bs) := by
  unfold readRleMeta at h
  split at h
  case isTrue hf =>
    obtain ⟨m, bs₁, hm, hp⟩ := bind_ok h
    obtain ⟨rfl, rfl⟩ := pure_ok hp
    exact Or.inl ⟨hf, m, rfl, hm⟩
  case isFalse hf =>
    obtain ⟨rfl, rfl⟩ := pure_ok h
    exact Or.inr ⟨by simpa using hf, rfl, rfl⟩

theorem coreDecode_length {flags len n : Nat} {bs data rest : List Nat}
    (h : coreDecode flags len n bs = .ok (data, rest)) : data.length = len := by
  unfold coreDecode at h
  split at h
  case isTrue => exact read_exact_length h
  case isFalse =>
    split at h
    case isTrue => exact order1Decode_length h
    case isFalse => exact order0Decode_length h

theorem undoRle_ok {flags : Nat} {rmeta : Option (List Bool × List Nat × Nat)}
    {data : List Nat} {rle_len : Nat} {bs out rest : List Nat}
    (h : undoRle flags rmeta data rle_len bs = .ok (out, rest)) :
    rest = bs ∧ (hasFlag flags FLAG_RLE = true → out.length = rle_len) ∧
      (hasFlag flags FLAG_RLE = false → out = data) := by
  unfold undoRle at h
  split at h
  case isTrue hf =>
    cases rmeta with
    | some m =>
      obtain ⟨hok, rfl⟩ := liftE_ok h
      exact ⟨rfl, fun _ => rleDecode_length hok, fun hc => absurd hf (by simp [hc])⟩
    | none => exact absurd h pfail_not_ok
  case isFalse hf =>
    obtain ⟨rfl, rfl⟩ := pure_ok h
    exact ⟨rfl, fun hc => absurd hc (by simpa using hf), fun _ => rfl⟩

theorem undoPack_ok {flags : Nat} {pmeta : Option (List Nat × Nat × Nat)}
    {data : List Nat} {pack_len : Nat} {bs out rest : List Nat}
    (h : undoPack flags pmeta data pack_len bs = .ok (out, rest)) :
    rest = bs ∧ (hasFlag flags FLAG_PACK = true → out.length = pack_len) ∧
      (hasFlag flags FLAG_PACK = false → out = data) := by
  unfold undoPack at h
  split at h
  case isTrue hf =>
    cases pmeta with
    | some m =>
      obtain ⟨hok, rfl⟩ := liftE_ok h
      exact ⟨rfl, fun _ => packDecode_length hok, fun hc => absurd hf (by simp [hc])⟩
    | none => exact absurd h pfail_not_ok
  case isFalse hf =>
    obtain ⟨rfl, rfl⟩ := pure_ok h
    exact ⟨rfl, fun hc => absurd hc (by simpa using hf), fun _ => rfl⟩

theorem decodeInner_length {flags len n : Nat} {bs v rest : List Nat}
    (h : decodeInner flags len n bs = .ok (v, rest)) : v.length = len := by
  unfold decodeInner at h
  obtain ⟨pmeta, bs₁, h1, h2⟩ := bind_ok h
  obtain ⟨rmeta, bs₂, h3, h4⟩ := bind_ok h2
  obtain ⟨data, bs₃, h5, h6⟩ := bind_ok h4
  obtain ⟨data2, bs₄, h7, h8⟩ := bind_ok h6
  obtain ⟨data3, bs₅, h9, h10⟩ := bind_ok h8
  obtain ⟨rfl, rfl⟩ := pure_ok h10
  obtain ⟨rfl, hpk_t, hpk_f⟩ := undoPack_ok h9
  cases hpack : hasFlag flags FLAG_PACK with
  | true => exact hpk_t hpack
  | false =>
    rw [hpk_f hpack]
    have hpm_none : pmeta = none := by
      rcases readPackMeta_ok h1 with ⟨hf, _⟩ | ⟨_, hn, _⟩
      · rw [hpack] at hf; exact absurd hf (by simp)
      · exact hn
    obtain ⟨rfl, hrl_t, hrl_f⟩ := undoRle_ok h7
    cases hrle : hasFlag flags FLAG_RLE with
    | true =>
      rw [hrl_t hrle]
      simp [packNewLen, hpm_none]
    | false =>
      rw [hrl_f hrle]
      have hrm_none : rmeta = none := by
        rcases readRleMeta_ok h3 with ⟨hf, _⟩ | ⟨_, hn, _⟩
        · rw [hrle] at hf; exact absurd hf (by simp)
        · exact hn
      rw [coreDecode_length h5]
      simp [packNewLen, rleNewLen, hpm_none, hrm_none]

theorem readLenHint_spec {flags len0 : Nat} {bs : List Nat} {dlen : Nat} {bs₂ : List Nat}
    (h : readLenHint flags len0 bs = .ok (dlen, bs₂)) :
    (hasFlag flags FLAG_NO_SIZE = true ∧ dlen = len0 ∧ bs₂ = bs) ∨
      (hasFlag flags FLAG_NO_SIZE = false ∧
        ∃ m, read_uint7 bs = .ok (m, bs₂) ∧ m < USIZE_LIMIT ∧ dlen = m) := by
  unfold readLenHint at h
  split at h
  case isTrue hf =>
    obtain ⟨rfl, rfl⟩ := pure_ok h
    exact Or.inl ⟨hf, rfl, rfl⟩
  case isFalse hf =>
    unfold read_uint7_usize at h
    obtain ⟨m, bs₁, hm, hrest⟩ := bind_ok h
    split at hrest
    case isTrue hlt =>
      obtain ⟨rfl, rfl⟩ := pure_ok hrest
      exact Or.inr ⟨by simpa using hf, m, hm, hlt, rfl⟩
    case isFalse => exact absurd hrest pfail_not_ok

theorem decodeBody_length {sub : Nat → Parser (List Nat)} {len0 : Nat} {bs v rest : List Nat}
    (h : decodeBody sub len0 bs = .ok (v, rest)) :
    ∃ flags bs₁ dlen bs₂,
      read_u8 bs = .ok (flags, bs₁) ∧ readLenHint flags len0 bs₁ = .ok (dlen, bs₂) ∧
        v.length = dlen := by
  unfold decodeBody at h
  obtain ⟨flags, bs₁, h1, h2⟩ := bind_ok h
  obtain ⟨len, bs₂, h3, h4⟩ := bind_ok h2
  refine ⟨flags, bs₁, len, bs₂, h1, h3, ?_⟩
  split at h4
  case isTrue => exact rans_decode_stripe_length h4
  case isFalse => exact decodeInner_length h4

theorem decodeF_length {fuel len0 : Nat} {bs v rest : List Nat}
    (h : decodeF fuel len0 bs = .ok (v, rest)) :
    ∃ flags bs₁ dlen bs₂,
      read_u8 bs = .ok (flags, bs₁) ∧ readLenHint flags len0 bs₁ = .ok (dlen, bs₂) ∧
        v.length = dlen := by
  cases fuel with
  | zero => exact absurd h pfail_not_ok
  | succ fuel =>
    rw [decodeF] at h
    exact decodeBody_length h

theorem det_consumed_le {α : Type} {p : Parser α} (hp : Det p) {bs : List Nat} {a : α}
    {rest : List Nat} (h : p bs = .ok (a, rest)) : rest.length ≤ bs.length := by
  obtain ⟨c, rfl, _, _⟩ := hp _ _ _ h
  simp

theorem read_u8_consumes {bs : List Nat} {a : Nat} {rest : List Nat}
    (h : read_u8 bs = .ok (a, rest)) : bs.length = rest.length + 1 := by
  cases bs with
  | nil => exact absurd h (by simp [read_u8])
  | cons b bs' =>
    obtain ⟨rfl, rfl⟩ : b % 256 = a ∧ bs' = rest := by simpa [read_u8] using h
    simp

theorem stripeChunks_congr {dec₁ dec₂ : Nat → Parser (List Nat)}
    (hdec₁ : ∀ u, Det (dec₁ u)) (B len x n : Nat)
    (hag : ∀ u s, s.length ≤ B → dec₁ u s = dec₂ u s) :
    ∀ (k j : Nat) (s : List Nat), s.length ≤ B →
      stripeChunks dec₁ len x n k j s = stripeChunks dec₂ len x n k j s := by
  intro k
  induction k with
  | zero => intro j s hs; rfl
  | succ k ih =>
    intro j s hs
    rw [stripeChunks]
    rw [stripeChunks]
    rw [bind_apply, bind_apply, hag _ s hs]
    cases hres : dec₂ (len / x + if len % n > j then 1 else 0) s with
    | error e => rfl
    | ok q =>
      obtain ⟨chunk, s'⟩ := q
      have hs' : s'.length ≤ B := by
        have h₁ : dec₁ (len / x + if len % n > j then 1 else 0) s = .ok (chunk, s') := by
          rw [hag _ s hs]; exact hres
        exact le_trans (det_consumed_le (hdec₁ _) h₁) hs
      simp only []
      rw [bind_apply, bind_apply, ih (j + 1) s' hs']

theorem decodeF_agree :
    ∀ (f₁ f₂ len : Nat) (bs : List Nat), bs.length < f₁ → bs.length < f₂ →
      decodeF f₁ len bs = decodeF f₂ len bs := by
  intro f₁
  induction f₁ with
  | zero => intro f₂ len bs h1 h2; omega
  | succ g₁ ih =>
    intro f₂ len bs h1 h2
    cases f₂ with
    | zero => omega
    | succ g₂ =>
      rw [decodeF]
      rw [decodeF]
      unfold decodeBody
      rw [bind_apply, bind_apply]
      cases hflags : read_u8 bs with
      | error e => rfl
      | ok q =>
        obtain ⟨flags, bs₁⟩ := q
        have hbs₁ : bs.length = bs₁.length + 1 := read_u8_consumes hflags
        simp only []
        rw [bind_apply, bind_apply]
        cases hlen : readLenHint flags len bs₁ with
        | error e => rfl
        | ok q₂ =>
          obtain ⟨dlen, bs₂⟩ := q₂
          have hbs₂ : bs₂.length ≤ bs₁.length :=
            det_consumed_le (det_readLenHint flags len) hlen
          simp only []
          split
          case isFalse => rfl
          case isTrue =>
            unfold rans_decode_stripe
            rw [bind_apply, bind_apply]
            cases hx : read_u8 bs₂ with
            | error e => rfl
            | ok q₃ =>
              obtain ⟨x, bs₃⟩ := q₃
              have hbs₃ : bs₂.length = bs₃.length + 1 := read_u8_consumes hx
              simp only []
              rw [bind_apply, bind_apply]
              cases hcl : readClens x bs₃ with
              | error e => rfl
              | ok q₄ =>
                obtain ⟨clens, bs₄⟩ := q₄
                have hbs₄ : bs₄.length ≤ bs₃.length := det_consumed_le (det_readClens x) hcl
                simp only []
                rw [bind_apply, bind_apply]
                rw [stripeChunks_congr (fun u => det_decodeF g₁ u) bs₄.length dlen x
                  (laneCount flags) (fun u s hs => ih g₂ u s (by omega) (by omega)) x 0 bs₄ le_rfl]

theorem readLenHint_invalid {flags len0 m : Nat} {bs₁ bs₂ : List Nat}
    (hns : hasFlag flags FLAG_NO_SIZE = false) (hm : read_uint7 bs₁ = .ok (m, bs₂))
    (hbig : USIZE_LIMIT ≤ m) : readLenHint flags len0 bs₁ = .error .invalidData := by
  unfold readLenHint
  rw [if_neg (by simp [hns])]
  unfold read_uint7_usize
  rw [bind_apply]
  simp only [hm]
  rw [if_neg (by omega)]
  rfl

/-- Claim C1: on every input on which `decode` succeeds, the returned
buffer's length equals the declared uncompressed length — the
variable-length (uint7) value read from the stream when `NO_SIZE` is
absent (subject to it fitting the platform size type), or the
caller-supplied length argument when `NO_SIZE` is set; and when the
in-stream value does not fit the platform size type, `decode` fails with a
data error instead of returning a buffer. -/
theorem decode_length_spec (len0 : Nat) (bs : List Nat) :
    (∀ v rest, decode len0 bs = .ok (v, rest) →
      ∃ flags bs₁, read_u8 bs = .ok (flags, bs₁) ∧
        ((hasFlag flags FLAG_NO_SIZE = true ∧ v.length = len0) ∨
          (hasFlag flags FLAG_NO_SIZE = false ∧
            ∃ m bs₂, read_uint7 bs₁ = .ok (m, bs₂) ∧ m < USIZE_LIMIT ∧ v.length = m))) ∧
    (∀ flags bs₁ m bs₂, read_u8 bs = .ok (flags, bs₁) → hasFlag flags FLAG_NO_SIZE = false →
      read_uint7 bs₁ = .ok (m, bs₂) → USIZE_LIMIT ≤ m →
      decode len0 bs = .error .invalidData) := by
  constructor
  · intro v rest h
    obtain ⟨flags, bs₁, dlen, bs₂, hflags, hlh, hvlen⟩ := decodeF_length h
    refine ⟨flags, bs₁, hflags, ?_⟩
    rcases readLenHint_spec hlh with ⟨hns, rfl, rfl⟩ | ⟨hns, m, hm, hlt, rfl⟩
    · exact Or.inl ⟨hns, hvlen⟩
    · exact Or.inr ⟨hns, dlen, bs₂, hm, hlt, hvlen⟩
  · intro flags bs₁ m bs₂ hflags hns hm hbig
    show decodeF (bs.length + 1) len0 bs = .error .invalidData
    rw [decodeF]
    unfold decodeBody
    rw [bind_apply]
    simp only [hflags]
    rw [bind_apply]
    simp only [readLenHint_invalid hns hm hbig]

/-- Witness for C1: the CAT golden vector instantiates the success case
(declared length 7 = output length), and `hugeLenVec` (declared length
`2^67`, exceeding the 64-bit size type) instantiates the data-error
case. -/
theorem decode_length_spec_witness :
    (∃ flags bs₁, read_u8 catVec = .ok (flags, bs₁) ∧
      ((hasFlag flags FLAG_NO_SIZE = true ∧ noodlesBytes.length = 0) ∨
        (hasFlag flags FLAG_NO_SIZE = false ∧
          ∃ m bs₂, read_uint7 bs₁ = .ok (m, bs₂) ∧ m < USIZE_LIMIT ∧ noodlesBytes.length = m))) ∧
    decode 0 hugeLenVec = .error .invalidData :=
  ⟨(decode_length_spec 0 catVec).1 noodlesBytes [] (by decide),
    (decode_length_spec 0 hugeLenVec).2 0
      [0x90, 0x80, 0x80, 0x80, 0x80, 0x80, 0x80, 0x80, 0x80, 0x00] (2 ^ 67) []
      (by decide) (by decide) (by decide) (by decide)⟩

/-- Claim C5: truncating a stream on which `decode` succeeds at any point
strictly inside its consumed bytes makes `decode` fail with
`UnexpectedEof` — the embedding is total, so no panic or out-of-bounds
read occurs, and the error return carries no partial output buffer. -/
theorem decode_truncation_eof (len : Nat) (bs v rest : List Nat)
    (h : decode len bs = .ok (v, rest)) :
    ∀ k, k < bs.length - rest.length → decode len (bs.take k) = .error .eof := by
  intro k hk
  obtain ⟨c, hbs, ext, tr⟩ := det_decodeF (bs.length + 1) len _ _ _ h
  have hclen : c.length = bs.length - rest.length := by
    subst hbs
    simp
  have hk' : k < c.length := by omega
  have hcbs : c.length ≤ bs.length := by omega
  have h1 : decodeF (bs.length + 1) len (c.take k) = .error .eof := tr k hk'
  have htake : bs.take k = c.take k := by
    conv_lhs => rw [hbs]
    rw [List.take_append_eq_append_take]
    have hz : k - c.length = 0 := by omega
    rw [hz]
    simp
  show decodeF ((bs.take k).length + 1) len (bs.take k) = .error .eof
  rw [htake]
  rw [decodeF_agree ((c.take k).length + 1) (bs.length + 1) len (c.take k)
    (by omega) (by simp [List.length_take]; omega)]
  exact h1

/-- Witness for C5: the CAT golden vector decodes successfully consuming
all nine bytes, and its three-byte prefix fails with `UnexpectedEof`. -/
theorem decode_truncation_eof_witness :
    decode 0 catVec = .ok (noodlesBytes, []) ∧ decode 0 (catVec.take 3) = .error .eof :=
  ⟨by decide, decode_truncation_eof 0 catVec noodlesBytes [] (by decide) 3 (by decide)⟩

/-- Claim C9: `decode` applied to the flag byte `0x20` (CAT), the length
byte `0x07` and the seven bytes of `"noodles"` succeeds and returns
exactly those seven bytes unchanged, consuming the whole stream. -/
theorem decode_cat_golden : decode 0 catVec = .ok (noodlesBytes, []) := by decide

theorem read_u8_lt {bs : List Nat} {a : Nat} {rest : List Nat}
    (h : read_u8 bs = .ok (a, rest)) : a < 256 := by
  cases bs with
  | nil => exact absurd h (by simp [read_u8])
  | cons b bs' =>
    obtain ⟨rfl, rfl⟩ : b % 256 = a ∧ bs' = rest := by simpa [read_u8] using h
    exact Nat.mod_lt _ (by omega)

theorem read_u16_le_lt {bs : List Nat} {w : Nat} {rest : List Nat}
    (h : read_u16_le bs = .ok (w, rest)) : w < 2 ^ 16 := by
  match bs with
  | [] => exact absurd h (by simp [read_u16_le])
  | [b0] => exact absurd h (by simp [read_u16_le])
  | b0 :: b1 :: bs' =>
    obtain ⟨rfl, rfl⟩ : b0 % 256 + 256 * (b1 % 256) = w ∧ bs' = rest := by
      simpa [read_u16_le] using h
    have h0 : b0 % 256 < 256 := Nat.mod_lt _ (by omega)
    have h1 : b1 % 256 < 256 := Nat.mod_lt _ (by omega)
    omega

/-- Counterexample to claim C3 as stated: for the lane state `r = 0` and a
zero input word, renormalization returns state 0, which does not lie in
`[2^15, 2^31)`. -/
theorem renorm_invariant_counterexample :
    rans_renorm_nx16 0 [0, 0] = .ok (0, []) ∧ ¬ 2 ^ 15 ≤ (0 : Nat) :=
  ⟨by decide, by decide⟩

/-- Claim C3 (amended): renormalization reads exactly one little-endian
16-bit word and shifts the state left 16 bits when `r < 2^15` (and reads
nothing and returns `r` unchanged otherwise); the post-state lies in
`[2^15, 2^31)` provided the incoming state is nonzero and below `2^31`
(the invariant the decoder maintains) — not for every 32-bit `r`. -/
theorem rans_renorm_spec (r : Nat) (bs : List Nat) (r' : Nat) (rest : List Nat)
    (h : rans_renorm_nx16 r bs = .ok (r', rest)) :
    ((2 ^ 15 ≤ r ∧ r' = r ∧ rest = bs) ∨
      (r < 2 ^ 15 ∧ ∃ w, read_u16_le bs = .ok (w, rest) ∧ w < 2 ^ 16 ∧
        r' = r * 2 ^ 16 + w)) ∧
    (1 ≤ r → r < 2 ^ 31 → 2 ^ 15 ≤ r' ∧ r' < 2 ^ 31) := by
  unfold rans_renorm_nx16 at h
  split at h
  case isTrue hr =>
    obtain ⟨w, bs₁, hw, hp⟩ := bind_ok h
    obtain ⟨hr', rfl⟩ := pure_ok hp
    have hwlt : w < 2 ^ 16 := read_u16_le_lt hw
    have hmod : (r * 2 ^ 16) % 2 ^ 32 = r * 2 ^ 16 := Nat.mod_eq_of_lt (by nlinarith)
    have hr'' : r' = r * 2 ^ 16 + w := by omega
    constructor
    · exact Or.inr ⟨hr, w, hw, hwlt, hr''⟩
    · intro h1 _
      constructor
      · have : 2 ^ 16 ≤ r * 2 ^ 16 := Nat.le_mul_of_pos_left _ h1
        omega
      · have : r * 2 ^ 16 ≤ (2 ^ 15 - 1) * 2 ^ 16 :=
          Nat.mul_le_mul_right _ (by omega)
        omega
  case isFalse hr =>
    obtain ⟨rfl, rfl⟩ := pure_ok h
    push_neg at hr
    exact ⟨Or.inl ⟨hr, rfl, rfl⟩, fun _ h31 => ⟨hr, h31⟩⟩

/-- Witness for C3 (amended): `r = 1` with input word 0 renormalizes to
`2^16`, inside the invariant interval. -/
theorem rans_renorm_spec_witness :
    (((2 ^ 15 ≤ 1 ∧ 2 ^ 16 = 1 ∧ ([] : List Nat) = [0, 0]) ∨
      (1 < 2 ^ 15 ∧ ∃ w, read_u16_le [0, 0] = .ok (w, []) ∧ w < 2 ^ 16 ∧
        2 ^ 16 = 1 * 2 ^ 16 + w)) ∧
      (1 ≤ 1 → 1 < 2 ^ 31 → 2 ^ 15 ≤ 2 ^ 16 ∧ 2 ^ 16 < 2 ^ 31)) :=
  rans_renorm_spec 1 [0, 0] (2 ^ 16) [] (by decide)

/-- Counterexample to claim C7 as stated: on the input bytes
`[254, 255, 2]` the alphabet reader terminates successfully, but it stops
at a symbol 0 produced by the in-run wrap of the `u8` increment past 255 —
not a freshly read sentinel — and with a pending run count of 1. -/
theorem alphabet_terminator_counterexample :
    (read_alphabetFull [254, 255, 2]).map (fun q => (q.1.2.1, q.1.2.2, q.2)) =
      .ok ((1, false, ([] : List Nat))) ∧ (1 : Nat) ≠ 0 :=
  ⟨by decide, by decide⟩

/-- Claim C7 (amended): for every finite input byte sequence the alphabet
reader terminates (the embedding is a total function): it either succeeds
— at a freshly read sentinel symbol 0, in which case no run is pending, or
at a symbol 0 produced by the wrapping in-run increment past 255, in which
case a run may still be pending — or fails with an end-of-input error; it
never returns any other error and never loops. A run byte is read only
when a freshly read symbol continues the previous value by exactly one and
the previous value is below 255 (the guard in `alphaRead`). -/
theorem read_alphabet_terminates (bs : List Nat) :
    (∃ alpha rleF fresh rest, read_alphabetFull bs = .ok ((alpha, rleF, fresh), rest) ∧
      (fresh = true → rleF = 0)) ∨
    read_alphabetFull bs = .error .eof := by
  cases bs with
  | nil => exact Or.inr rfl
  | cons b bs₀ =>
    rcases alphaRead_ok_or_eof bs₀.length bs₀ le_rfl (List.replicate 256 false) (b % 256) with
      ⟨alpha, rleF, fresh, rest, hok, himp⟩ | herr
    · exact Or.inl ⟨alpha, rleF, fresh, rest, by rw [read_alphabetFull]; exact hok, himp⟩
    · exact Or.inr (by rw [read_alphabetFull]; exact herr)

/-- Witness for C7 (amended), at the two-byte input `[3, 0]`: a freshly
read sentinel with no pending run. -/
theorem read_alphabet_terminates_witness :
    (∃ alpha rleF fresh rest, read_alphabetFull [3, 0] = .ok ((alpha, rleF, fresh), rest) ∧
      (fresh = true → rleF = 0)) ∨
    read_alphabetFull [3, 0] = .error .eof :=
  read_alphabet_terminates [3, 0]

/-- Counterexample to claim C8 as stated: `decode_pack_meta` accepts the
symbol count 17, outside 1–16, returning the 17-entry table and the
pre-pack length 5. -/
theorem pack_meta_accepts_17 :
    decode_pack_meta packMeta17Vec = .ok ((List.range 17, 17, 5), []) ∧ ¬ (17 ≤ 16) :=
  ⟨by decide, by decide⟩

/-- Claim C8 (amended): `decode_pack_meta` reads a 1-byte symbol count
`n_sym`, rejecting only 0 with a data error (any count 1–255 is accepted
at this stage; the 1–16 bound is not enforced here), then reads the
`n_sym`-entry symbol lookup table, then the pre-pack uncompressed length
as a variable-length integer converted to the platform size type. -/
theorem decode_pack_meta_spec (bs : List Nat) :
    (∀ rest : List Nat, decode_pack_meta (0 :: rest) = .error .invalidData) ∧
    (∀ (p : List Nat) (n len : Nat) (rest : List Nat),
      decode_pack_meta bs = .ok ((p, n, len), rest) →
      1 ≤ n ∧ n ≤ 255 ∧ p.length = n ∧
        ∃ bs₁ bs₂, read_u8 bs = .ok (n, bs₁) ∧ read_exact n bs₁ = .ok (p, bs₂) ∧
          read_uint7 bs₂ = .ok (len, rest) ∧ len < USIZE_LIMIT) := by
  constructor
  · intro rest
    unfold decode_pack_meta
    rw [bind_apply]
    have h8 : read_u8 (0 :: rest) = .ok (0, rest) := by simp [read_u8]
    simp only [h8]
    simp [pfail]
  · intro p n len rest h
    unfold decode_pack_meta at h
    obtain ⟨n₀, bs₁, h8, h2⟩ := bind_ok h
    split at h2
    case isTrue => exact absurd h2 pfail_not_ok
    case isFalse hn0 =>
      obtain ⟨p₀, bs₂, hex, h3⟩ := bind_ok h2
      obtain ⟨m, bs₃, h7u, h4⟩ := bind_ok h3
      obtain ⟨heq, rfl⟩ := pure_ok h4
      obtain ⟨hpp, hnn, hmm⟩ : p₀ = p ∧ n₀ = n ∧ m = len := by
        simpa [Prod.ext_iff] using heq
      subst hpp
      subst hnn
      subst hmm
      unfold read_uint7_usize at h7u
      obtain ⟨m', bs₄, h7, hrest⟩ := bind_ok h7u
      split at hrest
      case isFalse => exact absurd hrest pfail_not_ok
      case isTrue hlt =>
        obtain ⟨rfl, rfl⟩ := pure_ok hrest
        have hn255 := read_u8_lt h8
        exact ⟨by omega, by omega, read_exact_length hex, bs₁, bs₂, h8, hex, h7, hlt⟩

/-- Witness for C8 (amended): symbol count 0 is rejected; the block
`[3, 7, 8, 9, 4]` parses to the 3-entry table `[7, 8, 9]` with pre-pack
length 4. -/
theorem decode_pack_meta_spec_witness :
    decode_pack_meta (0 :: [1, 2]) = .error .invalidData ∧
    (1 ≤ 3 ∧ 3 ≤ 255 ∧ ([7, 8, 9] : List Nat).length = 3 ∧
      ∃ bs₁ bs₂, read_u8 [3, 7, 8, 9, 4] = .ok (3, bs₁) ∧
        read_exact 3 bs₁ = .ok ([7, 8, 9], bs₂) ∧
        read_uint7 bs₂ = .ok (4, []) ∧ 4 < USIZE_LIMIT) :=
  ⟨(decode_pack_meta_spec [0, 1, 2]).1 [1, 2],
    (decode_pack_meta_spec [3, 7, 8, 9, 4]).2 [7, 8, 9] 3 4 [] (by decide)⟩

theorem rans_decode_stripe_zero (dec : Nat → Parser (List Nat)) (len n : Nat)
    (rest : List Nat) :
    rans_decode_stripe dec len n (0 :: rest) = .ok (List.replicate len 0, rest) := by
  unfold rans_decode_stripe
  rw [bind_apply]
  have h8 : read_u8 (0 :: rest) = .ok (0, rest) := by simp [read_u8]
  simp only [h8]
  rw [bind_apply]
  have hcl : readClens 0 rest = .ok ([], rest) := rfl
  simp only [hcl]
  rw [bind_apply]
  have hch : stripeChunks dec len 0 n 0 0 rest = .ok ([], rest) := rfl
  simp only [hch]
  rfl

/-- Claim C10: when the `STRIPE` flag is set and the stripe-count byte read
from the stream is 0, `decode` does not fail: all per-stripe loops are
empty (the `len / x` division is never reached), and it returns a buffer
of `len` zero bytes, consuming no input beyond the stripe-count byte —
stated both for a caller-supplied length (`NO_SIZE` set) and for an
in-stream single-byte length (`NO_SIZE` absent). -/
theorem stripe_zero_count (fuel len0 flags L : Nat) (rest : List Nat)
    (hfl : flags < 256) (hstripe : hasFlag flags FLAG_STRIPE = true) :
    (hasFlag flags FLAG_NO_SIZE = true →
      decodeF (fuel + 1) len0 (flags :: 0 :: rest) = .ok (List.replicate len0 0, rest)) ∧
    (hasFlag flags FLAG_NO_SIZE = false → L < 128 →
      decodeF (fuel + 1) len0 (flags :: L :: 0 :: rest) = .ok (List.replicate L 0, rest)) := by
  constructor
  · intro hns
    rw [decodeF]
    unfold decodeBody
    rw [bind_apply]
    have h8 : read_u8 (flags :: 0 :: rest) = .ok (flags, 0 :: rest) := by
      simp [read_u8, Nat.mod_eq_of_lt hfl]
    simp only [h8]
    rw [bind_apply]
    have hlh : readLenHint flags len0 (0 :: rest) = .ok (len0, 0 :: rest) := by
      unfold readLenHint
      rw [if_pos hns]
      rfl
    simp only [hlh]
    rw [if_pos hstripe]
    exact rans_decode_stripe_zero _ _ _ _
  · intro hns hL
    rw [decodeF]
    unfold decodeBody
    rw [bind_apply]
    have h8 : read_u8 (flags :: L :: 0 :: rest) = .ok (flags, L :: 0 :: rest) := by
      simp [read_u8, Nat.mod_eq_of_lt hfl]
    simp only [h8]
    rw [bind_apply]
    have h7 : read_uint7 (L :: 0 :: rest) = .ok (L, 0 :: rest) := by
      show read_uint7Go (L :: 0 :: rest) 0 = _
      rw [read_uint7Go]
      rw [if_pos (by omega : L % 256 < 128)]
      have : L % 256 = L := Nat.mod_eq_of_lt (by omega)
      rw [this]
      simp
    have hlh : readLenHint flags len0 (L :: 0 :: rest) = .ok (L, 0 :: rest) := by
      unfold readLenHint
      rw [if_neg (by simp [hns])]
      unfold read_uint7_usize
      rw [bind_apply]
      simp only [h7]
      rw [if_pos (by unfold USIZE_LIMIT; omega)]
      rfl
    simp only [hlh]
    rw [if_pos hstripe]
    exact rans_decode_stripe_zero _ _ _ _

/-- Witness for C10: flags `0x18` (`STRIPE | NO_SIZE`) with caller length
5, and flags `0x08` (`STRIPE`) with in-stream length 3; stripe count 0 in
both. -/
theorem stripe_zero_count_witness :
    decodeF 1 5 [0x18, 0] = .ok (List.replicate 5 0, []) ∧
    decodeF 1 0 [0x08, 3, 0] = .ok (List.replicate 3 0, []) :=
  ⟨(stripe_zero_count 0 5 0x18 3 [] (by decide) (by decide)).1 (by decide),
    (stripe_zero_count 0 0 0x08 3 [] (by decide) (by decide)).2 (by decide) (by decide)⟩

theorem getD_mono_of_adjacent {cfreqs : List Nat}
    (hmono : ∀ j, j < 256 → cfreqs.getD j 0 ≤ cfreqs.getD (j + 1) 0) :
    ∀ (d i : Nat), i + d < 257 → cfreqs.getD i 0 ≤ cfreqs.getD (i + d) 0 := by
  intro d
  induction d with
  | zero => intro i _; exact le_rfl
  | succ d ih =>
    intro i hi
    calc cfreqs.getD i 0 ≤ cfreqs.getD (i + d) 0 := ih i (by omega)
      _ ≤ cfreqs.getD (i + d + 1) 0 := hmono (i + d) (by omega)

theorem symFromFreqGo_spec (cfreqs : List Nat) (freq : Nat) :
    ∀ (k sym : Nat), sym + k = 255 → cfreqs.getD sym 0 ≤ freq →
      sym ≤ symFromFreqGo cfreqs freq k sym ∧ symFromFreqGo cfreqs freq k sym ≤ 255 ∧
        cfreqs.getD (symFromFreqGo cfreqs freq k sym) 0 ≤ freq ∧
        (symFromFreqGo cfreqs freq k sym = 255 ∨
          freq < cfreqs.getD (symFromFreqGo cfreqs freq k sym + 1) 0) := by
  intro k
  induction k with
  | zero =>
    intro sym hk hle
    rw [symFromFreqGo]
    exact ⟨le_rfl, by omega, hle, Or.inl (by omega)⟩
  | succ k ih =>
    intro sym hk hle
    rw [symFromFreqGo]
    split
    case isTrue hcond =>
      obtain ⟨h1, h2, h3, h4⟩ := ih (sym + 1) (by omega) hcond
      exact ⟨by omega, h2, h3, h4⟩
    case isFalse hcond =>
      exact ⟨le_rfl, by omega, hle, Or.inr (by omega)⟩

theorem getD_take_eq (l : List Nat) (n i : Nat) (hi : i < n) :
    (l.take n).getD i 0 = l.getD i 0 := by
  rw [List.getD_eq_getElem?_getD, List.getD_eq_getElem?_getD, List.getElem?_take]
  rw [if_pos hi]

theorem symFromFreqGo_take (cfreqs : List Nat) (freq : Nat) :
    ∀ (k sym : Nat), sym + k = 255 →
      symFromFreqGo cfreqs freq k sym = symFromFreqGo (cfreqs.take 256) freq k sym := by
  intro k
  induction k with
  | zero => intro sym _; rfl
  | succ k ih =>
    intro sym hk
    rw [symFromFreqGo]
    rw [symFromFreqGo]
    rw [getD_take_eq cfreqs 256 (sym + 1) (by omega)]
    split
    case isTrue => exact ih (sym + 1) (by omega)
    case isFalse => rfl

/-- Claim C4: for every 257-entry cumulative-frequency table that is
monotone non-decreasing with first entry 0 and final entry equal to the
normalization total, and every slot value below the total, the symbol
lookup returns the last index (at most 255) whose cumulative value is at
most the slot, resolving ties toward the higher index; and the scan
consults only table indices up to 255 (all within the 257-entry table), so
it is well-defined for every such slot — stated as invariance under
truncating the table to its first 256 entries. -/
theorem symbol_lookup_spec (cfreqs : List Nat) (freq total : Nat)
    (hlen : cfreqs.length = 257)
    (hmono : ∀ j, j < 256 → cfreqs.getD j 0 ≤ cfreqs.getD (j + 1) 0)
    (hzero : cfreqs.getD 0 0 = 0)
    (htotal : cfreqs.getD 256 0 = total)
    (hfreq : freq < total) :
    rans_get_symbol_from_freq cfreqs freq ≤ 255 ∧
    cfreqs.getD (rans_get_symbol_from_freq cfreqs freq) 0 ≤ freq ∧
    (∀ j, j < 257 → cfreqs.getD j 0 ≤ freq → j ≤ rans_get_symbol_from_freq cfreqs freq) ∧
    rans_get_symbol_from_freq cfreqs freq = rans_get_symbol_from_freq (cfreqs.take 256) freq := by
  unfold rans_get_symbol_from_freq
  obtain ⟨h0, h255, hle, hbound⟩ := symFromFreqGo_spec cfreqs freq 255 0 (by omega) (by omega)
  refine ⟨h255, hle, ?_, symFromFreqGo_take cfreqs freq 255 0 (by omega)⟩
  intro j hj hjf
  by_contra hlt
  push_neg at hlt
  rcases hbound with h255eq | hnext
  · have hj256 : j = 256 := by omega
    rw [hj256, htotal] at hjf
    omega
  · have hstep : cfreqs.getD (symFromFreqGo cfreqs freq 255 0 + 1) 0 ≤ cfreqs.getD j 0 := by
      have := getD_mono_of_adjacent hmono (j - (symFromFreqGo cfreqs freq 255 0 + 1))
        (symFromFreqGo cfreqs freq 255 0 + 1) (by omega)
      have harg : symFromFreqGo cfreqs freq 255 0 + 1 +
          (j - (symFromFreqGo cfreqs freq 255 0 + 1)) = j := by omega
      rw [harg] at this
      exact this
    omega

set_option maxRecDepth 8000

/-- Witness for C4: the table `0, 1, ..., 256` (total 256) with slot 5
selects symbol 5. -/
theorem symbol_lookup_spec_witness :
    rans_get_symbol_from_freq (List.range 257) 5 ≤ 255 ∧
    (List.range 257).getD (rans_get_symbol_from_freq (List.range 257) 5) 0 ≤ 5 ∧
    (∀ j, j < 257 → (List.range 257).getD j 0 ≤ 5 →
      j ≤ rans_get_symbol_from_freq (List.range 257) 5) ∧
    rans_get_symbol_from_freq (List.range 257) 5 =
      rans_get_symbol_from_freq ((List.range 257).take 256) 5 :=
  symbol_lookup_spec (List.range 257) 5 256 (by decide) (by decide) (by decide) (by decide)
    (by decide)

theorem stripeChunks_spec {dec : Nat → Parser (List Nat)} {len x n : Nat} :
    ∀ (k j : Nat) (bs : List Nat) (ts : List (Nat × List Nat)) (rest : List Nat),
      stripeChunks dec len x n k j bs = .ok (ts, rest) →
      ts.length = k ∧
        ∀ m, m < k →
          (ts.getD m (0, [])).1 = len / x + (if len % n > (j + m) then 1 else 0) ∧
            ∃ s s', dec ((ts.getD m (0, [])).1) s = .ok ((ts.getD m (0, [])).2, s') := by
  intro k
  induction k with
  | zero =>
    intro j bs ts rest h
    obtain ⟨rfl, rfl⟩ := pure_ok h
    exact ⟨rfl, fun m hm => absurd hm (by omega)⟩
  | succ k ih =>
    intro j bs ts rest h
    rw [stripeChunks] at h
    obtain ⟨chunk, s₁, hdec, h2⟩ := bind_ok h
    obtain ⟨ts', s₂, hrec, h3⟩ := bind_ok h2
    obtain ⟨rfl, rfl⟩ := pure_ok h3
    obtain ⟨hlen', hper⟩ := ih (j + 1) s₁ ts' s₂ hrec
    refine ⟨by simp [hlen'], ?_⟩
    intro m hm
    cases m with
    | zero =>
      refine ⟨by simp, bs, s₁, ?_⟩
      simpa using hdec
    | succ m' =>
      have hm' : m' < k := by omega
      obtain ⟨hf, hex⟩ := hper m' hm'
      constructor
      · simpa [Nat.add_assoc, Nat.add_comm 1 m'] using hf
      · simpa using hex

theorem getChecked_ok {chunk : List Nat} {i v : Nat} (h : getChecked chunk i = .ok v) :
    i < chunk.length ∧ chunk.get? i = some v := by
  unfold getChecked at h
  split at h
  case isTrue hi =>
    obtain rfl : chunk.get ⟨i, hi⟩ = v := by simpa using h
    exact ⟨hi, by rw [List.get?_eq_get hi]⟩
  case isFalse => exact absurd h (by simp)

theorem setChecked_ok {dst : List Nat} {i v : Nat} {out : List Nat}
    (h : setChecked dst i v = .ok out) : i < dst.length ∧ out = dst.set i v := by
  unfold setChecked at h
  split at h
  case isTrue hi =>
    obtain rfl : dst.set i v = out := by simpa using h
    exact ⟨hi, rfl⟩
  case isFalse => exact absurd h (by simp)

theorem writeChunkGo_spec {n j : Nat} (hn : 0 < n) {chunk : List Nat} :
    ∀ (k i : Nat) (dst out : List Nat), writeChunkGo n j chunk k i dst = .ok out →
      (∀ p, (∀ i', i ≤ i' → i' < i + k → p ≠ i' * n + j) → out.get? p = dst.get? p) ∧
        ∀ i', i ≤ i' → i' < i + k → i' < chunk.length ∧ i' * n + j < dst.length ∧
          out.get? (i' * n + j) = chunk.get? i' := by
  intro k
  induction k with
  | zero =>
    intro i dst out h
    obtain rfl : dst = out := by simpa [writeChunkGo] using h
    exact ⟨fun p _ => rfl, fun i' h1 h2 => absurd (lt_of_le_of_lt h1 h2) (by omega)⟩
  | succ k ih =>
    intro i dst out h
    rw [writeChunkGo] at h
    cases hget : getChecked chunk i with
    | error e => simp only [hget] at h; exact absurd h (by simp)
    | ok v =>
      simp only [hget] at h
      cases hset : setChecked dst (i * n + j) v with
      | error e => simp only [hset] at h; exact absurd h (by simp)
      | ok dst₁ =>
        simp only [hset] at h
        obtain ⟨hic, hcv⟩ := getChecked_ok hget
        obtain ⟨hib, rfl⟩ := setChecked_ok hset
        obtain ⟨hframe, hcontent⟩ := ih (i + 1) _ out h
        have hfr0 : ∀ p, p ≠ i * n + j →
            (∀ i', i + 1 ≤ i' → i' < i + 1 + k → p ≠ i' * n + j) →
            out.get? p = dst.get? p := by
          intro p hp hp'
          rw [hframe p hp']
          exact List.get?_set_ne v dst (Ne.symm hp)
        constructor
        · intro p hp
          refine hfr0 p (hp i le_rfl (by omega)) ?_
          intro i' h1 h2
          exact hp i' (by omega) (by omega)
        · intro i' h1 h2
          rcases Nat.eq_or_lt_of_le h1 with rfl | hgt
          · refine ⟨hic, hib, ?_⟩
            have hne : ∀ i'', i + 1 ≤ i'' → i'' < i + 1 + k → i * n + j ≠ i'' * n + j := by
              intro i'' hi1 _
              have : (i + 1) * n ≤ i'' * n := Nat.mul_le_mul_right n hi1
              have he : (i + 1) * n = i * n + n := by ring
              omega
            rw [hframe _ hne]
            rw [List.get?_set_eq_of_lt v hib]
            exact hcv.symm
          · have := hcontent i' (by omega) (by omega)
            simpa [List.length_set] using this

theorem interleaveGo_spec {n : Nat} (hn : 0 < n) :
    ∀ (ts : List (Nat × List Nat)) (j : Nat) (dst out : List Nat),
      interleaveGo n ts j dst = .ok out →
      (∀ p, (∀ jd, jd < ts.length → ∀ i', i' < (ts.getD jd (0, [])).1 →
          p ≠ i' * n + (j + jd)) → out.get? p = dst.get? p) ∧
        ∀ jd, jd < ts.length → ∀ i, i < (ts.getD jd (0, [])).1 →
          (∀ jd', jd < jd' → jd' < ts.length → ∀ i', i' < (ts.getD jd' (0, [])).1 →
            i' * n + (j + jd') ≠ i * n + (j + jd)) →
          i < (ts.getD jd (0, [])).2.length ∧ i * n + (j + jd) < dst.length ∧
            out.get? (i * n + (j + jd)) = (ts.getD jd (0, [])).2.get? i := by
  intro ts
  induction ts with
  | nil =>
    intro j dst out h
    obtain rfl : dst = out := by simpa [interleaveGo] using h
    exact ⟨fun p _ => rfl, fun jd hjd => absurd hjd (by simp)⟩
  | cons hd ts' ih =>
    intro j dst out h
    obtain ⟨ulen, chunk⟩ := hd
    rw [interleaveGo] at h
    cases hw : writeChunkGo n j chunk ulen 0 dst with
    | error e => simp only [hw] at h; exact absurd h (by simp)
    | ok dst₁ =>
      simp only [hw] at h
      obtain ⟨fw, cw⟩ := writeChunkGo_spec hn ulen 0 dst dst₁ hw
      obtain ⟨fI, cI⟩ := ih (j + 1) dst₁ out h
      have hdst₁len : dst₁.length = dst.length := writeChunkGo_length ulen 0 dst dst₁ hw
      constructor
      · intro p hp
        have hout : out.get? p = dst₁.get? p := by
          refine fI p ?_
          intro jd' hjd' i' hi' hc
          refine hp (jd' + 1) (by simp only [List.length_cons]; omega) i'
            (by simpa using hi') ?_
          rw [show j + (jd' + 1) = j + 1 + jd' by omega]
          exact hc
        rw [hout]
        refine fw p ?_
        intro i' _ hi' hc
        refine hp 0 (by simp) i' (by simpa using hi') ?_
        rw [show j + 0 = j by omega]
        exact hc
      · intro jd hjd i hi hlater
        cases jd with
        | zero =>
          have hi0 : i < ulen := by simpa using hi
          obtain ⟨h1, h2, h3⟩ := cw i (Nat.zero_le i) (by omega)
          have hout : out.get? (i * n + (j + 0)) = dst₁.get? (i * n + (j + 0)) := by
            refine fI _ ?_
            intro jd' hjd' i' hi' hc
            refine hlater (jd' + 1) (by omega) (by simp only [List.length_cons]; omega) i'
              (by simpa using hi') ?_
            rw [show j + (jd' + 1) = j + 1 + jd' by omega]
            exact hc.symm
          refine ⟨by simpa using h1, ?_, ?_⟩
          · simpa using h2
          · rw [hout]
            simp only [Nat.add_zero]
            rw [h3]
            simp
        | succ jd' =>
          have hjd' : jd' < ts'.length := by simpa using hjd
          have hi' : i < (ts'.getD jd' (0, [])).1 := by simpa using hi
          have hlater' : ∀ jd'', jd' < jd'' → jd'' < ts'.length →
              ∀ i'', i'' < (ts'.getD jd'' (0, [])).1 →
              i'' * n + ((j + 1) + jd'') ≠ i * n + ((j + 1) + jd') := by
            intro jd'' h1' h2' i'' hi'' hc
            refine hlater (jd'' + 1) (by omega) (by simp only [List.length_cons]; omega) i''
              (by simpa using hi'') ?_
            rw [show j + (jd'' + 1) = j + 1 + jd'' by omega,
              show j + (jd' + 1) = j + 1 + jd' by omega]
            exact hc
          obtain ⟨g1, g2, g3⟩ := cI jd' hjd' i hi' hlater'
          have harith : j + (jd' + 1) = j + 1 + jd' := by omega
          refine ⟨by simpa using g1, ?_, ?_⟩
          · rw [harith]
            simpa [hdst₁len] using g2
          · rw [harith]
            rw [g3]
            simp

theorem stripe_pos_iff {len n j i : Nat} (hn : 0 < n) (hj : j < n) :
    i * n + j < len ↔ i < len / n + (if len % n > j then 1 else 0) := by
  have hqr : n * (len / n) + len % n = len := Nat.div_add_mod len n
  have hcomm : n * (len / n) = (len / n) * n := Nat.mul_comm _ _
  have hr : len % n < n := Nat.mod_lt _ hn
  by_cases hcase : len % n > j
  · rw [if_pos hcase]
    constructor
    · intro hlt
      by_contra hge
      push_neg at hge
      have h1 : (len / n + 1) * n ≤ i * n := Nat.mul_le_mul_right n (by omega)
      have h2 : (len / n + 1) * n = (len / n) * n + n := by ring
      omega
    · intro hlt
      have h1 : i * n ≤ (len / n) * n := Nat.mul_le_mul_right n (by omega)
      omega
  · rw [if_neg hcase]
    push_neg at hcase
    constructor
    · intro hlt
      by_contra hge
      push_neg at hge
      have h1 : (len / n) * n ≤ i * n := Nat.mul_le_mul_right n hge
      omega
    · intro hlt
      have h1 : (i + 1) * n ≤ (len / n) * n := Nat.mul_le_mul_right n (by omega)
      have h2 : (i + 1) * n = i * n + n := by ring
      omega

theorem stripe_pos_unique {len n p : Nat} (hn : 0 < n) (hp : p < len) :
    ∃! q : Nat × Nat, q.2 < n ∧ q.1 * n + q.2 = p ∧
      q.1 < len / n + (if len % n > q.2 then 1 else 0) := by
  have hmod : p % n < n := Nat.mod_lt _ hn
  have hdm : (p / n) * n + p % n = p := by
    rw [Nat.mul_comm]
    exact Nat.div_add_mod p n
  refine ⟨(p / n, p % n), ⟨hmod, hdm, ?_⟩, ?_⟩
  · exact (stripe_pos_iff hn hmod).mp (by rw [hdm]; exact hp)
  · rintro ⟨i, j⟩ ⟨hj, hij, _⟩
    have hmodeq : p % n = j := by
      rw [← hij]
      rw [Nat.mul_comm i n]
      rw [Nat.mul_add_mod n i j]
      exact Nat.mod_eq_of_lt hj
    have hdiveq : p / n = i := by
      rw [← hij]
      rw [Nat.mul_comm i n]
      rw [Nat.mul_add_div hn i j]
      rw [Nat.div_eq_of_lt hj]
      omega
    simp [← hmodeq, ← hdiveq]

/-- Claim C2: in stripe decoding with stripe count `x` and lane width `n`,
every stripe `j` in `0..x` has its per-stripe uncompressed length computed
as `len / x`, incremented by one exactly when `len % n > j` (the remainder
is distributed by the lane width `n`, not the stripe count `x`), and the
recursive decode is invoked with that length, producing that stripe's
chunk; and in the final buffer the `i`-th symbol of stripe `j` sits at
output position `i * n + j` (whenever no later stripe writes the same
position). -/
theorem stripe_sublengths_and_positions (fuel len n : Nat) (bs dst rest : List Nat)
    (hn : 0 < n)
    (h : rans_decode_stripe (fun u => decodeF fuel u) len n bs = .ok (dst, rest)) :
    ∃ x bs₁ clens bs₂ ts bs₃,
      read_u8 bs = .ok (x, bs₁) ∧
      readClens x bs₁ = .ok (clens, bs₂) ∧
      stripeChunks (fun u => decodeF fuel u) len x n x 0 bs₂ = .ok (ts, bs₃) ∧
      rest = bs₃ ∧
      interleaveGo n ts 0 (List.replicate len 0) = .ok dst ∧
      ts.length = x ∧
      (∀ j, j < x →
        (ts.getD j (0, [])).1 = len / x + (if len % n > j then 1 else 0) ∧
        ∃ s s', decodeF fuel ((ts.getD j (0, [])).1) s = .ok ((ts.getD j (0, [])).2, s')) ∧
      (∀ j i, j < x → i < (ts.getD j (0, [])).1 →
        (∀ j' i', j < j' → j' < x → i' < (ts.getD j' (0, [])).1 →
          i' * n + j' ≠ i * n + j) →
        dst.get? (i * n + j) = (ts.getD j (0, [])).2.get? i) := by
  unfold rans_decode_stripe at h
  obtain ⟨x, bs₁, h1, h2⟩ := bind_ok h
  obtain ⟨clens, bs₂, h3, h4⟩ := bind_ok h2
  obtain ⟨ts, bs₃, h5, h6⟩ := bind_ok h4
  obtain ⟨hok, rfl⟩ := liftE_ok h6
  obtain ⟨hlen, hper⟩ := stripeChunks_spec x 0 bs₂ ts bs₃ h5
  refine ⟨x, bs₁, clens, bs₂, ts, bs₃, h1, h3, h5, rfl, hok, hlen, ?_, ?_⟩
  · intro j hj
    obtain ⟨hf, hex⟩ := hper j (by omega)
    exact ⟨by simpa using hf, hex⟩
  · intro j i hj hi hlater
    obtain ⟨_, hcont⟩ := interleaveGo_spec hn ts 0 (List.replicate len 0) dst hok
    have := hcont j (by omega) i hi ?_
    · obtain ⟨_, _, hval⟩ := this
      simpa using hval
    · intro j' hjj' hj' i' hi' hc
      refine hlater j' i' hjj' (by omega) hi' ?_
      simpa using hc

/-- Witness for C2: the stripe body with `x = 4`, `n = 4`, total length 7
decodes to `"noodles"`; length formula gives stripes of 2, 2, 2, 1. -/
theorem stripe_sublengths_and_positions_witness :
    ∃ x bs₁ clens bs₂ ts bs₃,
      read_u8 stripeOkBody = .ok (x, bs₁) ∧
      readClens x bs₁ = .ok (clens, bs₂) ∧
      stripeChunks (fun u => decodeF 20 u) 7 x 4 x 0 bs₂ = .ok (ts, bs₃) ∧
      ([] : List Nat) = bs₃ ∧
      interleaveGo 4 ts 0 (List.replicate 7 0) = .ok noodlesBytes ∧
      ts.length = x ∧
      (∀ j, j < x →
        (ts.getD j (0, [])).1 = 7 / x + (if 7 % 4 > j then 1 else 0) ∧
        ∃ s s', decodeF 20 ((ts.getD j (0, [])).1) s = .ok ((ts.getD j (0, [])).2, s')) ∧
      (∀ j i, j < x → i < (ts.getD j (0, [])).1 →
        (∀ j' i', j < j' → j' < x → i' < (ts.getD j' (0, [])).1 →
          i' * 4 + j' ≠ i * 4 + j) →
        noodlesBytes.get? (i * 4 + j) = (ts.getD j (0, [])).2.get? i) :=
  stripe_sublengths_and_positions 20 7 4 stripeOkBody noodlesBytes [] (by decide) (by decide)

/-- Counterexample to claim C6 as stated: the stream `stripeGapVec`
(stripe count `x = 8`, lane width `n = 4`, total length 16) decodes
successfully, yet output index 12 is written by no (stripe, position) pair
`(j, i)` with `j < 8` and `i < 16/8 + (16 % 4 > j)` — the interleave
leaves a gap (indices 12–15 keep their zero fill), so not every output
index is written by exactly one pair. -/
theorem stripe_coverage_counterexample :
    decode 0 stripeGapVec =
      .ok ([10, 11, 12, 13, 14, 15, 16, 17, 24, 25, 26, 27, 0, 0, 0, 0], []) ∧
    12 < 16 ∧
    (∀ j, j < 8 → ∀ i, i < 16 / 8 + (if 16 % 4 > j then 1 else 0) → i * 4 + j ≠ 12) :=
  ⟨by decide, by decide, by decide⟩

/-- Claim C6 (amended): when the stripe count read from the stream equals
the lane width `n`, every output index in `[0, len)` is written by exactly
one (stripe, position) pair, the stripe/lane arithmetic never indexes
outside the allocated buffer, and the final buffer holds stripe `p % n`'s
symbol `p / n` at every position `p`.  (For stripe counts different from
`n` the interleave can leave gaps, overwrite positions, or panic on an
out-of-bounds index rather than return a decode error.) -/
theorem stripe_coverage_x_eq_n (fuel len n : Nat) (bs dst rest : List Nat)
    (hn : 0 < n)
    (h : rans_decode_stripe (fun u => decodeF fuel u) len n bs = .ok (dst, rest))
    (hx : read_u8 bs = .ok (n, bs.tail)) :
    (∀ j i, j < n → i < len / n + (if len % n > j then 1 else 0) → i * n + j < len) ∧
    (∀ p, p < len → ∃! q : Nat × Nat, q.2 < n ∧ q.1 * n + q.2 = p ∧
      q.1 < len / n + (if len % n > q.2 then 1 else 0)) ∧
    ∃ clens bs₂ ts bs₃,
      readClens n bs.tail = .ok (clens, bs₂) ∧
      stripeChunks (fun u => decodeF fuel u) len n n n 0 bs₂ = .ok (ts, bs₃) ∧
      ts.length = n ∧
      ∀ p, p < len → dst.get? p = (ts.getD (p % n) (0, [])).2.get? (p / n) := by
  refine ⟨fun j i hj hi => (stripe_pos_iff hn hj).mpr hi,
    fun p hp => stripe_pos_unique hn hp, ?_⟩
  unfold rans_decode_stripe at h
  obtain ⟨x, bs₁, h1, h2⟩ := bind_ok h
  obtain ⟨hx', hbs₁⟩ : x = n ∧ bs₁ = bs.tail := by
    rw [h1] at hx
    simpa [Prod.ext_iff] using hx
  subst hx'
  subst hbs₁
  obtain ⟨clens, bs₂, h3, h4⟩ := bind_ok h2
  obtain ⟨ts, bs₃, h5, h6⟩ := bind_ok h4
  obtain ⟨hok, rfl⟩ := liftE_ok h6
  obtain ⟨hlen, hper⟩ := stripeChunks_spec x 0 bs₂ ts bs₃ h5
  refine ⟨clens, bs₂, ts, bs₃, h3, h5, hlen, ?_⟩
  intro p hp
  have hmod : p % x < x := Nat.mod_lt _ hn
  have hdm : (p / x) * x + p % x = p := by
    rw [Nat.mul_comm]
    exact Nat.div_add_mod p x
  have hulen : (ts.getD (p % x) (0, [])).1 = len / x + (if len % x > p % x then 1 else 0) := by
    have := (hper (p % x) (by omega)).1
    simpa using this
  have hiu : p / x < (ts.getD (p % x) (0, [])).1 := by
    rw [hulen]
    exact (stripe_pos_iff hn hmod).mp (by rw [hdm]; exact hp)
  obtain ⟨_, hcont⟩ := interleaveGo_spec hn ts 0 (List.replicate len 0) dst hok
  have hres := hcont (p % x) (by omega) (p / x) hiu ?_
  · obtain ⟨_, _, hval⟩ := hres
    have harith : p / x * x + (0 + p % x) = p := by omega
    rw [harith] at hval
    exact hval
  · intro jd' hgt hjd' i' hi' hc
    have hjd'x : jd' < x := by omega
    have e1 : (i' * x + (0 + jd')) % x = jd' := by
      rw [Nat.zero_add, Nat.mul_comm i' x, Nat.mul_add_mod x i' jd']
      exact Nat.mod_eq_of_lt hjd'x
    have e2 : (p / x * x + (0 + p % x)) % x = p % x := by
      rw [Nat.zero_add, Nat.mul_comm (p / x) x, Nat.mul_add_mod x (p / x) (p % x)]
      exact Nat.mod_eq_of_lt hmod
    rw [hc] at e1
    omega

/-- Witness for C6 (amended): the `x = n = 4` stripe body decoding
`"noodles"`. -/
theorem stripe_coverage_x_eq_n_witness :
    (∀ j i, j < 4 → i < 7 / 4 + (if 7 % 4 > j then 1 else 0) → i * 4 + j < 7) ∧
    (∀ p, p < 7 → ∃! q : Nat × Nat, q.2 < 4 ∧ q.1 * 4 + q.2 = p ∧
      q.1 < 7 / 4 + (if 7 % 4 > q.2 then 1 else 0)) ∧
    ∃ clens bs₂ ts bs₃,
      readClens 4 stripeOkBody.tail = .ok (clens, bs₂) ∧
      stripeChunks (fun u => decodeF 20 u) 7 4 4 4 0 bs₂ = .ok (ts, bs₃) ∧
      ts.length = 4 ∧
      ∀ p, p < 7 → noodlesBytes.get? p = (ts.getD (p % 4) (0, [])).2.get? (p / 4) :=
  stripe_coverage_x_eq_n 20 7 4 stripeOkBody noodlesBytes [] (by decide) (by decide)
    (by decide)

end RansNx16
